import Mathlib

/-!
# docker-gen: template filters, path resolver, materializer and event loop

A shallow embedding of `docker-gen.go` and `template.go`.

Go strings are modelled by `String` (valid UTF-8 text), `interface{}` values by the
inductive `Value`, Go maps by association lists (the list order stands for the
iteration order of the map), and a runtime panic or `log.Fatalf` by `Except.error`.
-/

namespace DockerGen

/-! ## Go standard library: `strings` -/

/-- Prepend a character to the first piece of a split. -/
def consHead (c : Char) : List (List Char) → List (List Char)
  | [] => [[c]]
  | p :: ps => (c :: p) :: ps

/-- The scan of `strings.Split` for a non-empty separator: cut at every leftmost,
non-overlapping occurrence of `sep`; the counter skips the rest of a separator
that has just been found. -/
def splitSkip (sep : List Char) : Nat → List Char → List (List Char)
  | _, [] => [[]]
  | k + 1, _ :: cs => splitSkip sep k cs
  | 0, c :: cs =>
    if sep.isPrefixOf (c :: cs) then [] :: splitSkip sep (sep.length - 1) cs
    else consHead c (splitSkip sep 0 cs)

/-- Go `strings.Split(s, sep)`: with an empty separator the string is exploded into
its characters, otherwise it is cut at every occurrence of the separator. -/
def Split (s sep : String) : List String :=
  if sep.data = [] then s.data.map (fun c => String.mk [c])
  else (splitSkip sep.data 0 s.data).map String.mk

/-- The scan of `strings.SplitN(s, sep, 2)` for a non-empty separator: the text
before the first occurrence of `sep` and the text after it, if there is one. -/
def cutFirst (sep : List Char) : List Char → List Char × Option (List Char)
  | [] => ([], none)
  | c :: cs =>
    if sep.isPrefixOf (c :: cs) then ([], some ((c :: cs).drop sep.length))
    else ((cutFirst sep cs).1.cons c, (cutFirst sep cs).2)

/-- Go `strings.SplitN(s, sep, 2)` for a non-empty separator: at most two pieces,
the second one being the unsplit remainder. -/
def SplitN2 (s sep : String) : List String :=
  match cutFirst sep.data s.data with
  | (a, none) => [String.mk a]
  | (a, some b) => [String.mk a, String.mk b]

/-- Go `strings.Join(elems, sep)`. -/
def Join : List String → String → String
  | [], _ => ""
  | [a], _ => a
  | a :: b :: rest, sep => a ++ sep ++ Join (b :: rest) sep

/-- Go `strings.Join` on character lists, with a one-character separator. -/
def joinChars (c0 : Char) : List (List Char) → List Char
  | [] => []
  | [a] => a
  | a :: b :: rest => a ++ c0 :: joinChars c0 (b :: rest)

/-! ## Values seen through `reflect` and `pongo2.Value` -/

/-- A Go value held in an `interface{}`, with what `reflect` and `pongo2` tell apart
in this program. A slice records whether its element type is an interface type
(`[]interface{}`), a struct lists its fields by name, with whether the field is
exported, and a map lists its entries in iteration order and records whether its
key type is an interface type (`map[interface{}]T`) and whether a string can be
assigned to its key type (`map[string]T`, `map[interface{}]T`, and not `map[int]T`). -/
inductive Value where
  | nil : Value
  | bool (b : Bool) : Value
  | int (n : Int) : Value
  | str (s : String) : Value
  | list (ifaceElems : Bool) (xs : List Value) : Value
  | struct (fields : List (String × Bool × Value)) : Value
  | map (ifaceKeys : Bool) (stringKeys : Bool) (entries : List (Value × Value)) : Value

/-- The string held by a value, when its kind is `reflect.String`. -/
def Value.asString : Value → Option String
  | .str s => some s
  | _ => none

/-- Test whether a value is the string `k`. -/
def Value.isStr (v : Value) (k : String) : Bool := v.asString == some k

/-- A `pongo2.Value`: the value it holds, and whether the `reflect.Value` it wraps
is of kind `Interface`, as is an item or a key taken out of a slice or a map
whose element or key type is an interface type. -/
structure PValue where
  held : Value
  iface : Bool

/-- Go `pongo2.AsValue`: the `reflect.Value` is that of the dynamic value. -/
def AsValue (v : Value) : PValue := PValue.mk v false

/-- Method `Interface` of `pongo2.Value`. -/
def PValue.Interface (v : PValue) : Value := v.held

/-- Method `IsString` of `pongo2.Value`: the kind of the wrapped `reflect.Value` is
`reflect.String`, which the kind `Interface` is not. -/
def PValue.IsString (v : PValue) : Bool := !v.iface && v.held.asString.isSome

/-- Method `String` of `pongo2.Value`: on the string kind the string itself (the
filters below read it only behind `IsString`). -/
def PValue.GoString (v : PValue) : String := v.held.asString.getD ""

/-- Go `reflect.Value.FieldByName`: the field with exactly that name, if any, with
whether it is exported. -/
def FieldByName : List (String × Bool × Value) → String → Option (Bool × Value)
  | [], _ => none
  | (n, e, v) :: fs, name => if n = name then some (e, v) else FieldByName fs name

/-- Go `reflect.Value.MapIndex(reflect.ValueOf(key))` for a string key, on a map
whose key type a string can be assigned to. -/
def MapIndex : List (Value × Value) → String → Option Value
  | [], _ => none
  | (k, v) :: es, key => if k.isStr key then some v else MapIndex es key

/-! ## `docker-gen.go` -/

/-- The panic of `reflect.Value.Interface` on a field that is not exported. -/
def panicUnexported : String :=
  "reflect.Value.Interface: cannot return value obtained from unexported field or method"

/-- The panic of `reflect.Value.MapIndex` on a key of the wrong type. -/
def panicNotAssignable : String :=
  "reflect.Value.MapIndex: value of type string is not assignable to the key type"

/-- Function `deepGet` of docker-gen.go with an explicit recursion budget, `none`
when the budget is used up; each recursive call is on a strictly shorter path.
`Except.error` is a panic of `reflect`: `fieldValue.Interface()` on a field that is
not exported, and `MapIndex` with a string key on a map whose key type a string
cannot be assigned to. The diagnostic printed in the `default` branch is not part
of the returned value. -/
def deepGetAux : Nat → Value → String → Option (Except String Value)
  | 0, _, _ => none
  | fuel + 1, item, path =>
    if path = "" then some (Except.ok item)
    else
      match Split path "." with
      | [] => some (Except.ok item)
      | part0 :: rest =>
        match item with
        | Value.struct fields =>
          match FieldByName fields part0 with
          | some (exported, fieldValue) =>
            if exported then deepGetAux fuel fieldValue (Join rest ".")
            else some (Except.error panicUnexported)
          | none => some (Except.ok Value.nil)
        | Value.map _ stringKeys entries =>
          if stringKeys then
            match MapIndex entries part0 with
            | some mapValue => deepGetAux fuel mapValue (Join rest ".")
            | none => some (Except.ok Value.nil)
          else some (Except.error panicNotAssignable)
        | _ => some (Except.ok Value.nil)

/-- Function `deepGet` of docker-gen.go; a budget of one more than the length of
the path is never used up. -/
def deepGet (item : Value) (path : String) : Except String Value :=
  (deepGetAux (path.length + 1) item path).getD (Except.ok Value.nil)

/-- The lookups of `deepGet` along the segments of a path: the field or the entry of
each segment in turn, nil as soon as one is missing or the value is neither a
struct nor a map, and the panic of `reflect` on a field that is not exported or
on a map whose key type a string cannot be assigned to. -/
def walkSegments : Value → List String → Except String Value
  | v, [] => Except.ok v
  | Value.struct fields, seg :: segs =>
    match FieldByName fields seg with
    | some (exported, w) =>
      if exported then walkSegments w segs
      else Except.error panicUnexported
    | none => Except.ok Value.nil
  | Value.map _ stringKeys entries, seg :: segs =>
    if stringKeys then
      match MapIndex entries seg with
      | some w => walkSegments w segs
      | none => Except.ok Value.nil
    else Except.error panicNotAssignable
  | _, _ :: _ => Except.ok Value.nil

mutual
/-- A value on which `reflect` does not panic: throughout it, the fields of the
structs are exported and a string can be assigned to the key type of the maps. -/
def Value.safe : Value → Bool
  | Value.list _ xs => safeList xs
  | Value.struct fields => safeFields fields
  | Value.map _ stringKeys entries => stringKeys && safeEntries entries
  | _ => true
/-- The items of a slice are safe. -/
def safeList : List Value → Bool
  | [] => true
  | x :: xs => x.safe && safeList xs
/-- The fields of a struct are exported and safe. -/
def safeFields : List (String × Bool × Value) → Bool
  | [] => true
  | (_, exported, v) :: fs => exported && v.safe && safeFields fs
/-- The keys and the values of a map are safe. -/
def safeEntries : List (Value × Value) → Bool
  | [] => true
  | (k, v) :: es => k.safe && v.safe && safeEntries es
end

/-! ### The path resolver as the specification words it -/

/-- One resolution step: a segment looked up as a field name in a record, as a key
in a map, and absent on any other value. -/
def lookupSegment : Value → String → Option Value
  | Value.struct fields, seg => (FieldByName fields seg).map Prod.snd
  | Value.map _ _ entries, seg => MapIndex entries seg
  | _, _ => none

/-- Look the segments up one after the other, absent as soon as a step fails. -/
def resolveSegments : Value → List String → Value
  | v, [] => v
  | v, seg :: segs =>
    match lookupSegment v seg with
    | some w => resolveSegments w segs
    | none => Value.nil

/-- The reference resolver: the value itself on the empty path, otherwise the
segments of the path between the dots looked up in turn. -/
def resolve (v : Value) (p : String) : Value :=
  if p = "" then v else resolveSegments v (Split p ".")

/-- Drop a final empty segment, the one a path ending in a dot (or the empty path)
splits into. -/
def dropFinalEmpty : List String → List String
  | [] => []
  | [s] => if s = "" then [] else [s]
  | s :: t :: rest => s :: dropFinalEmpty (t :: rest)

/-- Type `Event` of docker-gen.go. -/
structure Event where
  ContainerId : String
  Status : String
  Image : String

/-- Type `Address` of docker-gen.go. -/
structure Address where
  IP : String
  Port : String

/-- Read a Go `map[string]T`: the value stored under the key, if any. -/
def mapGet {β : Type} : List (String × β) → String → Option β
  | [], _ => none
  | (k, v) :: m, key => if k = key then some v else mapGet m key

/-- Assign to a Go `map[string]T`: overwrite the entry of the key or add one. -/
def mapSet {β : Type} : List (String × β) → String → β → List (String × β)
  | [], key, val => [(key, val)]
  | (k, v) :: m, key, val => if k = key then (k, val) :: m else (k, v) :: mapSet m key val

/-- The keys of a Go map. -/
def mapKeySet {β : Type} (m : List (String × β)) : List String := m.map Prod.fst

/-- Type `RuntimeContainer` of docker-gen.go. -/
structure RuntimeContainer where
  ID : String
  Addresses : List Address
  Image : String
  Env : List (String × String)

/-- Modelled from the spec: the field `OnlyPublished`, which `generateFile` of
template.go reads and which the declaration of `Config` in docker-gen.go does not
have (`onlyPublished` of TemplateConfig in the data model). The other fields are
those of type `Config` of docker-gen.go. -/
structure Config where
  Template : String
  Dest : String
  Watch : Bool
  NotifyCmd : String
  OnlyExposed : Bool
  OnlyPublished : Bool

/-- The container collection handed to a template (`Context` in template.go). -/
abbrev Context := List RuntimeContainer

/-- What the runtime reports on inspecting one container, as far as
`generateFromContainers` reads it: the identifier, the image of the configuration,
the address, the ports of the network settings and the raw environment entries. -/
structure InspectedContainer where
  ID : String
  Image : String
  IPAddress : String
  Ports : List String
  Env : List String

/-- The body of the loop over `container.Config.Env` in `generateFromContainers`:
`parts := strings.Split(entry, "="); Env[parts[0]] = parts[1]`. Indexing `parts[1]`
in a slice of length one is a runtime panic. -/
def addEnvEntry (env : List (String × String)) (entry : String) :
    Except String (List (String × String)) :=
  match Split entry "=" with
  | part0 :: part1 :: _ => Except.ok (mapSet env part0 part1)
  | _ => Except.error "runtime error: index out of range"

/-- The loop over `container.Config.Env` in `generateFromContainers`. -/
def addEnvEntries : List (String × String) → List String →
    Except String (List (String × String))
  | env, [] => Except.ok env
  | env, entry :: rest =>
    match addEnvEntry env entry with
    | Except.ok env1 => addEnvEntries env1 rest
    | Except.error e => Except.error e

/-- The construction of one record in `generateFromContainers` (docker-gen.go),
from the inspection data of the container. -/
def buildRuntimeContainer (container : InspectedContainer) : Except String RuntimeContainer :=
  let addresses := container.Ports.map (fun k => Address.mk container.IPAddress k)
  match addEnvEntries [] container.Env with
  | Except.ok env => Except.ok (RuntimeContainer.mk container.ID addresses container.Image env)
  | Except.error e => Except.error e

/-- The test of the event loop of `main`. -/
def triggers (event : Event) : Bool :=
  event.Status == "start" || event.Status == "stop" || event.Status == "die"

/-- The event loop at the end of `main` (docker-gen.go), run on the events received
from the channel, in receipt order; `generateFromContainers` acts on the state of
the world `σ`. -/
def mainLoop {σ : Type} (generateFromContainers : σ → σ) : List Event → σ → σ
  | [], s => s
  | event :: rest, s =>
    if triggers event then mainLoop generateFromContainers rest (generateFromContainers s)
    else mainLoop generateFromContainers rest s

/-! ## `template.go` -/

/-- Method `Iterate` of `pongo2.Value`: the values the callback receives as its
third argument, in order; the items of a slice, the keys of a map, the
one-character pieces of a string (pongo2 slices the string byte by byte, which is
the same on ASCII text), and nothing for a value of another kind. An item or a
key of an interface type is handed over as a `reflect.Value` of kind `Interface`. -/
def Value.Iterate : Value → List PValue
  | Value.list ifaceElems xs => xs.map (fun x => PValue.mk x ifaceElems)
  | Value.map ifaceKeys _ entries => entries.map (fun e => PValue.mk e.1 ifaceKeys)
  | Value.str s => s.data.map (fun c => PValue.mk (Value.str (String.mk [c])) false)
  | _ => []

/-- Function `deepGetValue` of template.go. -/
def deepGetValue (item : PValue) (path : String) : Except String PValue :=
  match deepGet item.Interface path with
  | Except.ok v => Except.ok (AsValue v)
  | Except.error e => Except.error e

/-- The statement `groups[k] = append(groups[k], value)`. -/
def appendGroup (groups : List (String × List Value)) (k : String) (value : Value) :
    List (String × List Value) :=
  mapSet groups k ((mapGet groups k).getD [] ++ [value])

/-- The callback of `in.Iterate` in `groupBy` (template.go), run on the values in
turn; a panic of `deepGet` ends the loop. -/
def groupByLoop (key : String) :
    List (String × List Value) → List PValue → Except String (List (String × List Value))
  | groups, [] => Except.ok groups
  | groups, value :: rest =>
    match deepGetValue value key with
    | Except.error e => Except.error e
    | Except.ok val =>
      if val.IsString && val.GoString != "" then
        groupByLoop key (appendGroup groups val.GoString value.Interface) rest
      else groupByLoop key groups rest

/-- Filter `groupBy` of template.go: the map `groups` it hands to `pongo2.AsValue`;
`param` is `param.String()`. -/
def groupBy (inp : Value) (param : String) : Except String (List (String × List Value)) :=
  let key := param
  groupByLoop key [] inp.Iterate

/-- The callback of `in.Iterate` in `groupByMulti` (template.go), run on the values
in turn; a panic of `deepGet` ends the loop. -/
def groupByMultiLoop (fetch_key separator : String) :
    List (String × List Value) → List PValue → Except String (List (String × List Value))
  | groups, [] => Except.ok groups
  | groups, value :: rest =>
    match deepGetValue value fetch_key with
    | Except.error e => Except.error e
    | Except.ok val =>
      if val.IsString && val.GoString != "" then
        groupByMultiLoop fetch_key separator
          ((Split val.GoString separator).foldl
            (fun g item => appendGroup g item value.Interface) groups) rest
      else groupByMultiLoop fetch_key separator groups rest

/-- Filter `groupByMulti` of template.go: the map `groups` it hands to
`pongo2.AsValue`; `param` is `param.String()`. Indexing `splitted[1]` when the
parameter has no pipe is a runtime panic. -/
def groupByMulti (inp : Value) (param : String) : Except String (List (String × List Value)) :=
  match SplitN2 param "|" with
  | fetch_key :: separator :: _ => groupByMultiLoop fetch_key separator [] inp.Iterate
  | _ => Except.error "runtime error: index out of range"

/-- Filter `mapKeys` of template.go (registered as `keys`): the slice `ret`. -/
def mapKeys (inp : Value) : List String :=
  inp.Iterate.foldl (fun ret key =>
    if key.IsString && key.GoString != "" then ret ++ [key.GoString] else ret) []

/-- The group names `groupBy` files an element under: its value at the key path
when that is a non-empty string, and none otherwise. -/
def groupTokens (key : String) (x : Value) : List String :=
  match deepGet x key with
  | Except.ok (Value.str s) => if s = "" then [] else [s]
  | _ => []

/-- The group names `groupByMulti` files an element under: the pieces of its value
at the key path split on the separator when that value is a non-empty string, and
none otherwise. -/
def multiTokens (fetch_key separator : String) (x : Value) : List String :=
  match deepGet x fetch_key with
  | Except.ok (Value.str s) => if s = "" then [] else Split s separator
  | _ => []

/-- Test whether the value of an element at the key path is the string `k`. -/
def resolvesTo (key k : String) (x : Value) : Bool :=
  match deepGet x key with
  | Except.ok v => v.isStr k
  | Except.error _ => false

/-- The key that `mapKeys` keeps: the string held by a value of the string kind,
unless it is the empty string. -/
def nonEmptyString : Value → Option String
  | Value.str s => if s = "" then none else some s
  | _ => none

/-- A file: its bytes, permission bits and owner. -/
structure File where
  content : String
  mode : Nat
  uid : Nat
  gid : Nat

/-- The file system: the file found at each path, if any. -/
abbrev FS := String → Option File

/-- Create or replace the file at a path. -/
def FS.put (fs : FS) (name : String) (f : File) : FS :=
  fun p => if p = name then some f else fs p

/-- Go `os.Remove`, whose error `generateFile` ignores. -/
def FS.remove (fs : FS) (name : String) : FS :=
  fun p => if p = name then none else fs p

/-- Go `os.Rename` of an existing file. -/
def FS.rename (fs : FS) (oldname newname : String) : FS :=
  fun p => if p = newname then fs oldname else if p = oldname then none else fs p

/-- The bytes found at a path: those of the file there, and none when there is no
file, as `contents` in `generateFile` (an empty slice unless the destination
exists and is read). -/
def currentBytes (fs : FS) (path : String) : String :=
  match fs path with
  | some fi => fi.content
  | none => ""

/-- The template engine `pongo2`, as a deterministic function: `FromFile` parses
the template at a path, and the parsed template is its `Execute`, from the bound
container collection to the rendered text. -/
structure Engine where
  FromFile : String → Except String (Context → Except String String)

/-- The outcome of the system calls of one run of `generateFile`: the name of the
file `ioutil.TempFile` creates (none when it fails), the owner of the process, and
whether `Chmod`, `Chown`, `ioutil.ReadFile` and `os.Rename` fail. -/
structure Sys where
  tempFile : Option String
  uid : Nat
  gid : Nat
  chmodFails : Bool
  chownFails : Bool
  readFails : Bool
  renameFails : Bool

/-- The state `generateFile` acts on: the file system and what was written to
standard output. -/
structure World where
  fs : FS
  stdout : String

/-- The container collection `filteredContainers` of `generateFile` (template.go);
`PublishedAddresses` is the method of that name of a container, whose declaration
is not in the source files. -/
def filteredContainers (PublishedAddresses : RuntimeContainer → List Address)
    (config : Config) (containers : Context) : Context :=
  if config.OnlyPublished then
    containers.filter (fun container => (PublishedAddresses container).length > 0)
  else if config.OnlyExposed then
    containers.filter (fun container => container.Addresses.length > 0)
  else containers

/-- The part of `generateFile` (template.go) after the rendering, for a non-empty
`config.Dest`: `tmp` is the temporary file, which holds the rendered text `out`.
The result is `changed` and the file system once the deferred removal of the
temporary file has run. -/
def compareAndRename (sys : Sys) (config : Config) (tmp out : String) (fs : FS) :
    Except String (Bool × FS) :=
  let statted : Except String (String × FS) :=
    match fs config.Dest with
    | some fi =>
      if sys.chmodFails then Except.error "unable to chmod temp file"
      else if sys.chownFails then Except.error "unable to chown temp file"
      else if sys.readFails then Except.error "unable to compare current file contents"
      else Except.ok (fi.content,
        match fs tmp with
        | some t => fs.put tmp (File.mk t.content fi.mode fi.uid fi.gid)
        | none => fs)
    | none => Except.ok ("", fs)
  match statted with
  | Except.error e => Except.error e
  | Except.ok (contents, fs1) =>
    if contents ≠ out then
      if sys.renameFails then Except.error "unable to create dest file"
      else Except.ok (true, (fs1.rename tmp config.Dest).remove tmp)
    else Except.ok (false, fs1.remove tmp)

/-- Function `generateFile` of template.go. A call of `log.Fatalf` ends the process
and is the result `Except.error`. -/
def generateFile (engine : Engine) (PublishedAddresses : RuntimeContainer → List Address)
    (sys : Sys) (config : Config) (containers : Context) (w : World) :
    Except String (Bool × World) :=
  match engine.FromFile config.Template with
  | Except.error _ => Except.error "unable to parse template"
  | Except.ok tmpl =>
    let filtered := filteredContainers PublishedAddresses config containers
    if config.Dest ≠ "" then
      match sys.tempFile with
      | none => Except.error "unable to create temp file"
      | some tmp =>
        match tmpl filtered with
        | Except.error _ => Except.error "template error"
        | Except.ok out =>
          let fs0 := w.fs.put tmp (File.mk out 384 sys.uid sys.gid)
          match compareAndRename sys config tmp out fs0 with
          | Except.error e => Except.error e
          | Except.ok (changed, fs1) => Except.ok (changed, World.mk fs1 w.stdout)
    else
      match tmpl filtered with
      | Except.error _ => Except.error "template error"
      | Except.ok out => Except.ok (true, World.mk w.fs (w.stdout ++ out))

/-! ## Go standard library: `regexp` -/

/-- A regular expression of Go's `regexp/syntax`, with the operators this program
uses: a character class, a concatenation, and the greedy `?` and `*`. -/
inductive Regexp where
  | cls (p : Char → Bool) : Regexp
  | cat (a b : Regexp) : Regexp
  | quest (a : Regexp) : Regexp
  | star (a : Regexp) : Regexp

/-- The repetition `a{n,}`: `n` copies of `a` and then `a*`. -/
def Regexp.atLeast : Nat → Regexp → Regexp
  | 0, a => Regexp.star a
  | n + 1, a => Regexp.cat a (Regexp.atLeast n a)

/-- The matches of `a*`, by the remaining text, in the order of preference of a
greedy star: first one more iteration of the body (an iteration that consumes
nothing is not repeated), last no iteration. The counter bounds the iterations by
the length of the text. -/
def starEnds (body : List Char → List (List Char)) : Nat → List Char → List (List Char)
  | 0, s => [s]
  | n + 1, s =>
    ((body s).filter (fun t => t.length < s.length)).flatMap (starEnds body n) ++ [s]

/-- The matches of an expression at the start of a text, each given by the text
that remains after it, in the order of preference of Go's leftmost-first matching
(the order in which a backtracking matcher finds them): the first one is the match
that `regexp` reports. -/
def Regexp.ends : Regexp → List Char → List (List Char)
  | Regexp.cls _, [] => []
  | Regexp.cls p, c :: cs => if p c then [cs] else []
  | Regexp.cat a b, s => (a.ends s).flatMap b.ends
  | Regexp.quest a, s => a.ends s ++ [s]
  | Regexp.star a, s => starEnds a.ends s.length s

/-- The scan of `ReplaceAllString`, for an expression that matches no empty text:
at each position the leftmost match is replaced and the scan resumes after it,
and a character where no match starts is copied. The counter skips the rest of a
match that has just been replaced. -/
def replaceAllFrom (re : Regexp) (repl : List Char) : Nat → List Char → List Char
  | _, [] => []
  | skip + 1, _ :: cs => replaceAllFrom re repl skip cs
  | 0, c :: cs =>
    match (re.ends (c :: cs)).head? with
    | some rest =>
      if rest.length < (c :: cs).length then
        repl ++ replaceAllFrom re repl (cs.length - rest.length) cs
      else c :: replaceAllFrom re repl 0 cs
    | none => c :: replaceAllFrom re repl 0 cs

/-- Go `(*Regexp).ReplaceAllString(src, repl)` for a replacement without `$`. -/
def ReplaceAllString (re : Regexp) (src repl : String) : String :=
  String.mk (replaceAllFrom re repl.data 0 src.data)

/-- The class `\s` of Go's `regexp`: tab, line feed, form feed, carriage return
and space. -/
def isSpace (c : Char) : Bool :=
  c == '\t' || c == '\n' || c == Char.ofNat 12 || c == '\r' || c == ' '

/-- One line break: `\r?\n`. -/
def lineBreak : Regexp :=
  Regexp.cat (Regexp.quest (Regexp.cls (fun c => c == '\r'))) (Regexp.cls (fun c => c == '\n'))

/-- One line break preceded by white space: `[\s]*\r?\n`. -/
def re_emptyline : Regexp := Regexp.cat (Regexp.star (Regexp.cls isSpace)) lineBreak

/-- The matches of `[\s]*` in order of preference: the longest stretch of white
space first. -/
def spaceEnds : List Char → List (List Char)
  | [] => [[]]
  | c :: cs => if isSpace c then spaceEnds cs ++ [c :: cs] else [c :: cs]

/-- Variable `re_emptylines` of template.go: `([\s]*\r?\n){2,}`. -/
def re_emptylines : Regexp := Regexp.atLeast 2 re_emptyline

/-- Method `Execute` of `tagMuteNode` (template.go): `rendered` is what the wrapped
nodes wrote and `err` their error; the result is the buffer `buf` after the
write, and the error handed on. -/
def tagMuteNode.Execute (rendered : String) (err : Option String) (buf : String) :
    String × Option String :=
  (buf ++ ReplaceAllString re_emptylines rendered "\n\n", err)

/-! ### The collapse of blank lines as the specification words it -/

/-- The number of line breaks in the white space a text starts with. -/
def leadingBreaks : List Char → Nat
  | [] => 0
  | c :: cs => if isSpace c then leadingBreaks cs + (if c = '\n' then 1 else 0) else 0

/-- The text after the last line break of the white space a text starts with. -/
def afterLastBreak : List Char → Option (List Char)
  | [] => none
  | c :: cs =>
    if isSpace c then
      match afterLastBreak cs with
      | some rest => some rest
      | none => if c = '\n' then some cs else none
    else none

/-- The end of a stretch of text after its last line break. -/
def trailingSpace (run : List Char) : List Char :=
  (run.reverse.takeWhile (fun c => c != '\n')).reverse

/-- What a maximal stretch of white space becomes: with two line breaks or more,
two line breaks followed by the white space after its last line break, and
otherwise itself. -/
def collapseRun (run : List Char) : List Char :=
  if 2 ≤ run.count '\n' then '\n' :: '\n' :: trailingSpace run else run

/-- The text with each maximal stretch of white space collapsed, `run` being the
white space read since the last other character. -/
def collapseFrom : List Char → List Char → List Char
  | run, [] => collapseRun run
  | run, c :: cs =>
    if isSpace c then collapseFrom (run ++ [c]) cs
    else collapseRun run ++ c :: collapseFrom [] cs

/-- The reference: every run of two or more line breaks, with the white space before
and between them, replaced by two line breaks, and all other text unchanged. -/
def collapseBlankLines (s : String) : String := String.mk (collapseFrom [] s.data)

/-! ## Splitting on a one-character separator -/

theorem splitSkip_single_cons (c0 c : Char) (cs : List Char) :
    splitSkip [c0] 0 (c :: cs) =
      if c = c0 then [] :: splitSkip [c0] 0 cs else consHead c (splitSkip [c0] 0 cs) := by
  by_cases h : c = c0
  · subst h
    simp [splitSkip, List.isPrefixOf]
  · have h2 : ¬ c0 = c := fun e => h e.symm
    simp [splitSkip, List.isPrefixOf, h, h2]

theorem splitSkip_single_ne_nil (c0 : Char) (s : List Char) : splitSkip [c0] 0 s ≠ [] := by
  cases s with
  | nil => simp [splitSkip]
  | cons c cs =>
    rw [splitSkip_single_cons]
    split
    · simp
    · cases splitSkip [c0] 0 cs <;> simp [consHead]

theorem joinChars_consHead (c0 c : Char) (l : List (List Char)) (h : l ≠ []) :
    joinChars c0 (consHead c l) = c :: joinChars c0 l := by
  match l, h with
  | [p], _ => simp [consHead, joinChars]
  | p :: q :: r, _ => simp [consHead, joinChars]

theorem joinChars_splitSkip (c0 : Char) (s : List Char) :
    joinChars c0 (splitSkip [c0] 0 s) = s := by
  induction s with
  | nil => simp [splitSkip, joinChars]
  | cons c cs ih =>
    rw [splitSkip_single_cons]
    split
    · next h =>
      subst h
      have hne := splitSkip_single_ne_nil c cs
      match hs : splitSkip [c] 0 cs, hne with
      | q :: r, _ =>
        rw [hs] at ih
        simp [joinChars, ih]
    · rw [joinChars_consHead _ _ _ (splitSkip_single_ne_nil c0 cs), ih]

theorem splitSkip_single_free (c0 : Char) (s : List Char) :
    ∀ seg ∈ splitSkip [c0] 0 s, c0 ∉ seg := by
  induction s with
  | nil => simp [splitSkip]
  | cons c cs ih =>
    rw [splitSkip_single_cons]
    split
    · intro seg hseg
      rcases List.mem_cons.1 hseg with h | h
      · subst h; simp
      · exact ih seg h
    · next hc =>
      intro seg hseg
      match hs : splitSkip [c0] 0 cs with
      | [] => exact absurd hs (splitSkip_single_ne_nil c0 cs)
      | q :: r =>
        rw [hs] at hseg ih
        simp only [consHead, List.mem_cons] at hseg
        rcases hseg with h | h
        · subst h
          intro hm
          rcases List.mem_cons.1 hm with h1 | h1
          · exact hc h1.symm
          · exact ih q (List.mem_cons_self _ _) h1
        · exact ih seg (List.mem_cons_of_mem _ h)

theorem splitSkip_free_append (c0 : Char) (p rest : List Char) (hp : c0 ∉ p) :
    splitSkip [c0] 0 (p ++ c0 :: rest) = p :: splitSkip [c0] 0 rest := by
  induction p with
  | nil => simp [splitSkip_single_cons]
  | cons c cs ih =>
    have hc : ¬ c = c0 := fun e => hp (by simp [e])
    have hcs : c0 ∉ cs := fun e => hp (List.mem_cons_of_mem _ e)
    simp only [List.cons_append]
    rw [splitSkip_single_cons, if_neg hc, ih hcs]
    rfl

theorem splitSkip_free (c0 : Char) (p : List Char) (hp : c0 ∉ p) :
    splitSkip [c0] 0 p = [p] := by
  induction p with
  | nil => simp [splitSkip]
  | cons c cs ih =>
    have hc : ¬ c = c0 := fun e => hp (by simp [e])
    have hcs : c0 ∉ cs := fun e => hp (List.mem_cons_of_mem _ e)
    rw [splitSkip_single_cons, if_neg hc, ih hcs]
    rfl

theorem splitSkip_joinChars (c0 : Char) (segs : List (List Char)) (hne : segs ≠ [])
    (hfree : ∀ seg ∈ segs, c0 ∉ seg) : splitSkip [c0] 0 (joinChars c0 segs) = segs := by
  induction segs with
  | nil => exact absurd rfl hne
  | cons p rest ih =>
    cases rest with
    | nil => simpa [joinChars] using splitSkip_free c0 p (hfree p (List.mem_cons_self _ _))
    | cons q r =>
      have h1 : joinChars c0 (p :: q :: r) = p ++ c0 :: joinChars c0 (q :: r) := by
        simp [joinChars]
      rw [h1, splitSkip_free_append c0 p _ (hfree p (List.mem_cons_self _ _)),
        ih (by simp) (fun seg hs => hfree seg (List.mem_cons_of_mem _ hs))]

/-! ## The path resolver -/

theorem Split_single (s : String) (c0 : Char) :
    Split s (String.mk [c0]) = (splitSkip [c0] 0 s.data).map String.mk := by
  simp [Split]

theorem Join_map_mk (c0 : Char) (l : List (List Char)) :
    Join (l.map String.mk) (String.mk [c0]) = String.mk (joinChars c0 l) := by
  induction l with
  | nil => rfl
  | cons a rest ih =>
    cases rest with
    | nil => rfl
    | cons b r =>
      simp only [List.map_cons, Join, joinChars] at ih ⊢
      rw [ih]
      apply String.ext
      simp [String.data_append]

/-- What `deepGet` recurses on: the first segment of a non-empty path and the rest
joined again, which is a strictly shorter path that splits into that rest. -/
theorem Split_dot_cases (path : String) (hne : path ≠ "") :
    ∃ part0 rest, Split path "." = part0 :: rest ∧
      (Join rest ".").length < path.length ∧
      ((rest = [] ∧ part0 ≠ "") ∨ (rest ≠ [] ∧ Split (Join rest ".") "." = rest)) := by
  have hsplit : Split path "." = (splitSkip ['.'] 0 path.data).map String.mk :=
    Split_single path '.'
  have hjoin := joinChars_splitSkip '.' path.data
  have hfree := splitSkip_single_free '.' path.data
  have hdata : path.data ≠ [] := fun h => hne (String.ext h)
  match hs : splitSkip ['.'] 0 path.data with
  | [] => exact absurd hs (splitSkip_single_ne_nil '.' path.data)
  | p :: r =>
    rw [hs] at hjoin hfree hsplit
    refine ⟨String.mk p, r.map String.mk, by simpa using hsplit, ?_, ?_⟩
    · rw [show ("." : String) = String.mk ['.'] from rfl, Join_map_mk]
      cases r with
      | nil =>
        simp only [joinChars, String.length]
        exact List.length_pos.2 hdata
      | cons q r2 =>
        simp only [joinChars] at hjoin
        simp only [String.length]
        rw [← hjoin]
        simp only [List.length_append, List.length_cons]
        omega
    · cases r with
      | nil =>
        left
        refine ⟨rfl, ?_⟩
        simp only [joinChars] at hjoin
        intro h
        apply hdata
        rw [← hjoin]
        exact congrArg String.data h
      | cons q r2 =>
        right
        refine ⟨by simp, ?_⟩
        rw [show ("." : String) = String.mk ['.'] from rfl, Join_map_mk, Split_single]
        simp only
        rw [splitSkip_joinChars '.' (q :: r2) (by simp)
          (fun seg hseg => hfree seg (List.mem_cons_of_mem _ hseg))]

theorem dropFinalEmpty_cons (s : String) (rest : List String) (h : rest ≠ []) :
    dropFinalEmpty (s :: rest) = s :: dropFinalEmpty rest := by
  cases rest with
  | nil => exact absurd rfl h
  | cons t r => rfl

theorem deepGetAux_eq (fuel : Nat) : ∀ (item : Value) (path : String), path.length < fuel →
    deepGetAux fuel item path =
      some (walkSegments item (dropFinalEmpty (Split path "."))) := by
  induction fuel with
  | zero => intro item path h; exact absurd h (Nat.not_lt_zero _)
  | succ n ih =>
    intro item path hlen
    by_cases hp : path = ""
    · subst hp
      have h1 : dropFinalEmpty (Split "" ".") = [] := rfl
      rw [h1]
      cases item <;> simp [deepGetAux, walkSegments]
    · obtain ⟨part0, rest, hsplit, hshort, hcase⟩ := Split_dot_cases path hp
      have hrec : ∀ w : Value, deepGetAux n w (Join rest ".") =
          some (walkSegments w (dropFinalEmpty rest)) := by
        intro w
        rcases hcase with ⟨hr, _⟩ | ⟨hr, hsp⟩
        · subst hr
          have := ih w (Join [] ".") (by omega)
          rw [this]
          rfl
        · have := ih w (Join rest ".") (by omega)
          rwa [hsp] at this
      have hdrop : dropFinalEmpty (part0 :: rest) = part0 :: dropFinalEmpty rest := by
        rcases hcase with ⟨hr, h0⟩ | ⟨hr, _⟩
        · subst hr
          simp [dropFinalEmpty, h0]
        · exact dropFinalEmpty_cons part0 rest hr
      rw [hsplit, hdrop]
      simp only [deepGetAux, if_neg hp, hsplit]
      cases item with
      | struct fields =>
        simp only [walkSegments]
        cases hf : FieldByName fields part0 with
        | none => rfl
        | some ew =>
          obtain ⟨e, w⟩ := ew
          cases e with
          | true => simpa using hrec w
          | false => simp
      | map ifaceKeys stringKeys entries =>
        simp only [walkSegments]
        cases stringKeys with
        | false => simp
        | true =>
          simp only [if_true]
          cases MapIndex entries part0 with
          | none => rfl
          | some w => exact hrec w
      | nil => rfl
      | bool b => rfl
      | int k => rfl
      | str s => rfl
      | list b xs => rfl

/-- The recursion of `deepGet` ends within its budget. -/
theorem deepGetAux_total (item : Value) (path : String) :
    deepGetAux (path.length + 1) item path = some (deepGet item path) := by
  unfold deepGet
  rw [deepGetAux_eq _ item path (Nat.lt_succ_self _)]
  rfl

theorem deepGet_eq_walk (item : Value) (path : String) :
    deepGet item path = walkSegments item (dropFinalEmpty (Split path ".")) := by
  unfold deepGet
  rw [deepGetAux_eq _ item path (Nat.lt_succ_self _)]
  rfl

theorem safe_FieldByName (fields : List (String × Bool × Value)) (name : String)
    (e : Bool) (w : Value) (hs : safeFields fields = true)
    (h : FieldByName fields name = some (e, w)) : e = true ∧ w.safe = true := by
  induction fields with
  | nil => simp [FieldByName] at h
  | cons f fs ih =>
    obtain ⟨n, e2, v⟩ := f
    simp only [safeFields, Bool.and_eq_true] at hs
    by_cases hn : n = name
    · simp only [FieldByName, hn, if_true, Option.some.injEq, Prod.mk.injEq] at h
      obtain ⟨h1, h2⟩ := h
      subst h1 h2
      exact ⟨hs.1.1, hs.1.2⟩
    · simp only [FieldByName, hn, if_false] at h
      exact ih hs.2 h

theorem safe_MapIndex (entries : List (Value × Value)) (key : String) (w : Value)
    (hs : safeEntries entries = true) (h : MapIndex entries key = some w) :
    w.safe = true := by
  induction entries with
  | nil => simp [MapIndex] at h
  | cons e es ih =>
    obtain ⟨k, v⟩ := e
    simp only [safeEntries, Bool.and_eq_true] at hs
    by_cases hk : k.isStr key = true
    · simp only [MapIndex, hk, if_true, Option.some.injEq] at h
      subst h
      exact hs.1.2
    · simp only [MapIndex, hk, Bool.false_eq_true, if_false] at h
      exact ih hs.2 h

/-- On a safe value the lookups meet no panic and are those of the reference. -/
theorem walkSegments_safe (segs : List String) : ∀ (v : Value), v.safe = true →
    walkSegments v segs = Except.ok (resolveSegments v segs) := by
  induction segs with
  | nil => intro v _; cases v <;> rfl
  | cons seg segs ih =>
    intro v hv
    cases v with
    | struct fields =>
      simp only [Value.safe] at hv
      simp only [walkSegments, resolveSegments, lookupSegment]
      cases hf : FieldByName fields seg with
      | none => rfl
      | some ew =>
        obtain ⟨e, w⟩ := ew
        obtain ⟨he, hw⟩ := safe_FieldByName fields seg e w hv hf
        subst he
        simpa using ih w hw
    | map ifaceKeys stringKeys entries =>
      simp only [Value.safe, Bool.and_eq_true] at hv
      obtain ⟨hk, he⟩ := hv
      subst hk
      simp only [walkSegments, resolveSegments, lookupSegment, if_true]
      cases hm : MapIndex entries seg with
      | none => rfl
      | some w => exact ih w (safe_MapIndex entries seg w he hm)
    | nil => rfl
    | bool b => rfl
    | int k => rfl
    | str s => rfl
    | list b xs => rfl

/-- Whenever the lookups meet no panic, their result is that of the reference. -/
theorem walkSegments_ok (segs : List String) : ∀ (v w : Value),
    walkSegments v segs = Except.ok w → w = resolveSegments v segs := by
  induction segs with
  | nil =>
    intro v w h
    cases v <;> simp only [walkSegments, Except.ok.injEq] at h <;> exact h.symm
  | cons seg segs ih =>
    intro v w h
    cases v with
    | struct fields =>
      simp only [walkSegments] at h
      simp only [resolveSegments, lookupSegment]
      cases hf : FieldByName fields seg with
      | none =>
        rw [hf] at h
        simp only [Except.ok.injEq] at h
        simpa using h.symm
      | some ew =>
        obtain ⟨e, u⟩ := ew
        rw [hf] at h
        cases e with
        | true => simpa using ih u w (by simpa using h)
        | false => simp at h
    | map ifaceKeys stringKeys entries =>
      simp only [walkSegments] at h
      simp only [resolveSegments, lookupSegment]
      cases stringKeys with
      | false => simp at h
      | true =>
        simp only [if_true] at h
        cases hm : MapIndex entries seg with
        | none =>
          rw [hm] at h
          simp only [Except.ok.injEq] at h
          simpa using h.symm
        | some u =>
          rw [hm] at h
          exact ih u w h
    | nil => simp only [walkSegments, Except.ok.injEq] at h; exact h.symm
    | bool b => simp only [walkSegments, Except.ok.injEq] at h; exact h.symm
    | int k => simp only [walkSegments, Except.ok.injEq] at h; exact h.symm
    | str s => simp only [walkSegments, Except.ok.injEq] at h; exact h.symm
    | list b xs => simp only [walkSegments, Except.ok.injEq] at h; exact h.symm

theorem deepGet_eq (item : Value) (path : String) (h : item.safe = true) :
    deepGet item path =
      Except.ok (resolveSegments item (dropFinalEmpty (Split path "."))) := by
  rw [deepGet_eq_walk, walkSegments_safe _ item h]

theorem deepGet_ok (item w : Value) (path : String) (h : deepGet item path = Except.ok w) :
    w = resolveSegments item (dropFinalEmpty (Split path ".")) := by
  rw [deepGet_eq_walk] at h
  exact walkSegments_ok _ item w h

theorem getLast?_consHead (c : Char) (l : List (List Char)) :
    (consHead c l).getLast? ≠ some [] ∨ ((consHead c l).getLast? = l.getLast? ∧ 2 ≤ l.length) := by
  match l with
  | [] => left; simp [consHead]
  | [p] => left; simp [consHead]
  | p :: q :: r => right; simp [consHead, List.getLast?_cons_cons]

theorem splitSkip_last_empty (c0 : Char) (s : List Char) :
    (splitSkip [c0] 0 s).getLast? = some [] → s = [] ∨ s.getLast? = some c0 := by
  induction s with
  | nil => intro _; left; rfl
  | cons c cs ih =>
    intro h
    right
    rw [splitSkip_single_cons] at h
    split at h
    · next hc =>
      subst hc
      match hs : splitSkip [c] 0 cs with
      | [] => exact absurd hs (splitSkip_single_ne_nil c cs)
      | q :: r =>
        rw [hs, List.getLast?_cons_cons] at h
        rw [hs] at ih
        rcases ih h with h1 | h1
        · subst h1; rfl
        · cases cs with
          | nil => simp at h1
          | cons d ds => rw [List.getLast?_cons_cons]; exact h1
    · rcases getLast?_consHead c (splitSkip [c0] 0 cs) with h1 | ⟨h1, h2⟩
      · exact absurd h h1
      · rw [h1] at h
        rcases ih h with h3 | h3
        · subst h3
          simp [splitSkip] at h2
        · cases cs with
          | nil => simp at h3
          | cons d ds => rw [List.getLast?_cons_cons]; exact h3

theorem dropFinalEmpty_eq_self (l : List String) (h : l.getLast? ≠ some "") :
    dropFinalEmpty l = l := by
  match l with
  | [] => rfl
  | [s] =>
    have : s ≠ "" := fun e => h (by simp [e])
    simp [dropFinalEmpty, this]
  | s :: t :: r =>
    rw [List.getLast?_cons_cons] at h
    simp only [dropFinalEmpty, dropFinalEmpty_eq_self (t :: r) h]

theorem dropFinalEmpty_Split (path : String) (hp : path ≠ "")
    (h : path.data.getLast? ≠ some '.') :
    dropFinalEmpty (Split path ".") = Split path "." := by
  rw [dropFinalEmpty_eq_self]
  intro hl
  rw [Split_single path '.', List.getLast?_map] at hl
  have hdata : path.data ≠ [] := fun e => hp (String.ext e)
  cases hsp : (splitSkip ['.'] 0 path.data).getLast? with
  | none => rw [hsp] at hl; simp at hl
  | some x =>
    rw [hsp] at hl
    simp only [Option.map_some', Option.some.injEq] at hl
    have hx : x = [] := congrArg String.data hl
    subst hx
    rcases splitSkip_last_empty '.' path.data hsp with h1 | h1
    · exact hdata h1
    · exact h h1

/-- On a safe value and a path that does not end in a dot `deepGet` is the reference
resolver. -/
theorem deepGet_eq_resolve (item : Value) (path : String) (hs : item.safe = true)
    (h : path.data.getLast? ≠ some '.') :
    deepGet item path = Except.ok (resolve item path) := by
  rw [deepGet_eq item path hs]
  unfold resolve
  split
  · next hp => subst hp; rfl
  · next hp => rw [dropFinalEmpty_Split path hp h]

/-! ## Go maps and the grouping filters -/

theorem mapGet_mapSet {β : Type} (m : List (String × β)) (k : String) (v : β) (k2 : String) :
    mapGet (mapSet m k v) k2 = if k = k2 then some v else mapGet m k2 := by
  induction m with
  | nil => simp [mapSet, mapGet]
  | cons e m ih =>
    obtain ⟨a, b⟩ := e
    by_cases h : a = k
    · subst h
      by_cases h2 : a = k2 <;> simp [mapSet, mapGet, h2]
    · by_cases h2 : a = k2
      · subst h2
        have h3 : ¬ k = a := fun e => h e.symm
        simp [mapSet, mapGet, h, h3]
      · simp [mapSet, mapGet, h, h2, ih]

theorem mapKeySet_mapSet {β : Type} (m : List (String × β)) (k : String) (v : β) :
    mapKeySet (mapSet m k v) = if k ∈ mapKeySet m then mapKeySet m else mapKeySet m ++ [k] := by
  induction m with
  | nil => simp [mapSet, mapKeySet]
  | cons e m ih =>
    obtain ⟨a, b⟩ := e
    by_cases h : a = k
    · subst h
      simp [mapSet, mapKeySet]
    · have h3 : ¬ k = a := fun e => h e.symm
      simp only [mapKeySet] at ih
      simp only [mapSet, mapKeySet, h, if_false, List.map_cons, List.mem_cons, h3, false_or, ih]
      split <;> simp

theorem mapKeySet_nodup_mapSet {β : Type} (m : List (String × β)) (k : String) (v : β)
    (h : (mapKeySet m).Nodup) : (mapKeySet (mapSet m k v)).Nodup := by
  rw [mapKeySet_mapSet]
  split
  · exact h
  · next hk =>
    rw [List.nodup_append]
    refine ⟨h, by simp, ?_⟩
    intro a ha hb
    simp only [List.mem_singleton] at hb
    subst hb
    exact hk ha

theorem mem_mapKeySet_iff {β : Type} (m : List (String × β)) (k : String) :
    k ∈ mapKeySet m ↔ mapGet m k ≠ none := by
  induction m with
  | nil => simp [mapKeySet, mapGet]
  | cons e m ih =>
    obtain ⟨a, b⟩ := e
    simp only [mapKeySet] at ih
    by_cases h : a = k
    · subst h; simp [mapKeySet, mapGet]
    · have h3 : ¬ k = a := fun e => h e.symm
      simp [mapKeySet, mapGet, h, h3, ih]

/-- The groups built by appending each (group name, element) pair in turn. -/
theorem mapGet_foldl_appendGroup (pairs : List (String × Value))
    (acc : List (String × List Value)) (k : String) :
    mapGet (pairs.foldl (fun g p => appendGroup g p.1 p.2) acc) k =
      if (pairs.filter (fun p => p.1 == k)).isEmpty then mapGet acc k
      else some ((mapGet acc k).getD [] ++ (pairs.filter (fun p => p.1 == k)).map Prod.snd) := by
  induction pairs generalizing acc with
  | nil => simp
  | cons p rest ih =>
    simp only [List.foldl_cons]
    rw [ih]
    by_cases hp : p.1 = k
    · have hk : (p.1 == k) = true := by simp [hp]
      simp only [appendGroup, mapGet_mapSet, hp, if_true, List.filter_cons, hk]
      split
      · next h =>
        rw [List.isEmpty_iff] at h
        simp [h]
      · simp
    · have hk : (p.1 == k) = false := by simp [hp]
      simp only [appendGroup, mapGet_mapSet, hp, if_false, List.filter_cons, hk]
      simp

theorem nodup_foldl_appendGroup (pairs : List (String × Value))
    (acc : List (String × List Value)) (h : (mapKeySet acc).Nodup) :
    (mapKeySet (pairs.foldl (fun g p => appendGroup g p.1 p.2) acc)).Nodup := by
  induction pairs generalizing acc with
  | nil => exact h
  | cons p rest ih =>
    simp only [List.foldl_cons]
    exact ih _ (mapKeySet_nodup_mapSet _ _ _ h)

theorem Value.isStr_iff (v : Value) (k : String) : v.isStr k = true ↔ v = Value.str k := by
  cases v <;> simp [Value.isStr, Value.asString]

theorem resolvesTo_iff (key k : String) (x : Value) :
    resolvesTo key k x = true ↔ deepGet x key = Except.ok (Value.str k) := by
  unfold resolvesTo
  cases h : deepGet x key with
  | error e => simp
  | ok v => simp [Value.isStr_iff]

/-- The step of `groupBy` on an element whose resolution meets no panic. -/
theorem groupByLoop_cons (key : String) (acc : List (String × List Value)) (value : PValue)
    (rest : List PValue) (w : Value) (h : deepGet value.held key = Except.ok w) :
    groupByLoop key acc (value :: rest) =
      groupByLoop key (((groupTokens key value.held).map (fun t => (t, value.held))).foldl
        (fun g p => appendGroup g p.1 p.2) acc) rest := by
  simp only [groupByLoop, deepGetValue, PValue.Interface, h, groupTokens]
  cases w with
  | str s =>
    by_cases hs : s = ""
    · simp [AsValue, PValue.IsString, PValue.GoString, Value.asString, hs]
    · simp [AsValue, PValue.IsString, PValue.GoString, Value.asString, hs]
  | _ => simp [AsValue, PValue.IsString, PValue.GoString, Value.asString]

theorem groupByLoop_ok (key : String) (items : List PValue) :
    ∀ (acc : List (String × List Value)),
      (∀ v ∈ items, ∃ w, deepGet v.held key = Except.ok w) →
      groupByLoop key acc items = Except.ok
        ((items.flatMap (fun v => (groupTokens key v.held).map (fun t => (t, v.held)))).foldl
          (fun g p => appendGroup g p.1 p.2) acc) := by
  induction items with
  | nil => intro acc _; rfl
  | cons v rest ih =>
    intro acc h
    obtain ⟨w, hw⟩ := h v (List.mem_cons_self _ _)
    rw [groupByLoop_cons key acc v rest w hw,
      ih _ (fun u hu => h u (List.mem_cons_of_mem _ hu))]
    simp only [List.flatMap_cons, List.foldl_append]

theorem groupByLoop_error (key : String) (items : List PValue) :
    ∀ (acc : List (String × List Value)),
      (∃ v ∈ items, ∃ e, deepGet v.held key = Except.error e) →
      ∃ e, groupByLoop key acc items = Except.error e := by
  induction items with
  | nil => intro acc h; simp at h
  | cons v rest ih =>
    intro acc h
    cases hv : deepGet v.held key with
    | error e => exact ⟨e, by simp [groupByLoop, deepGetValue, PValue.Interface, hv]⟩
    | ok w =>
      rw [groupByLoop_cons key acc v rest w hv]
      apply ih
      obtain ⟨u, hu, e, he⟩ := h
      rcases List.mem_cons.1 hu with h1 | h1
      · subst h1; rw [hv] at he; exact absurd he (by simp)
      · exact ⟨u, h1, e, he⟩

theorem flatMap_Iterate_list {β : Type} (b : Bool) (xs : List Value) (f : Value → List β) :
    (Value.list b xs).Iterate.flatMap (fun v => f v.held) = xs.flatMap f := by
  simp only [Value.Iterate]
  induction xs with
  | nil => rfl
  | cons x rest ih => simp [List.flatMap_cons, ih]

theorem groupBy_eq_pairs (b : Bool) (xs : List Value) (key : String)
    (h : ∀ x ∈ xs, ∃ w, deepGet x key = Except.ok w) :
    groupBy (Value.list b xs) key = Except.ok
      ((xs.flatMap (fun x => (groupTokens key x).map (fun t => (t, x)))).foldl
        (fun g p => appendGroup g p.1 p.2) []) := by
  unfold groupBy
  simp only []
  rw [groupByLoop_ok key _ [] (by
    intro v hv
    simp only [Value.Iterate, List.mem_map] at hv
    obtain ⟨x, hx, rfl⟩ := hv
    exact h x hx)]
  rw [flatMap_Iterate_list b xs (fun x => (groupTokens key x).map (fun t => (t, x)))]

theorem groupBy_error (b : Bool) (xs : List Value) (key : String)
    (h : ∃ x ∈ xs, ∃ e, deepGet x key = Except.error e) :
    ∃ e, groupBy (Value.list b xs) key = Except.error e := by
  unfold groupBy
  apply groupByLoop_error
  obtain ⟨x, hx, e, he⟩ := h
  exact ⟨PValue.mk x b, by simp [Value.Iterate, hx], e, he⟩

theorem groupByMultiLoop_cons (fetch_key separator : String) (acc : List (String × List Value))
    (value : PValue) (rest : List PValue) (w : Value)
    (h : deepGet value.held fetch_key = Except.ok w) :
    groupByMultiLoop fetch_key separator acc (value :: rest) =
      groupByMultiLoop fetch_key separator
        (((multiTokens fetch_key separator value.held).map (fun t => (t, value.held))).foldl
          (fun g p => appendGroup g p.1 p.2) acc) rest := by
  simp only [groupByMultiLoop, deepGetValue, PValue.Interface, h, multiTokens]
  cases w with
  | str s =>
    by_cases hs : s = ""
    · simp [AsValue, PValue.IsString, PValue.GoString, Value.asString, hs]
    · simp [AsValue, PValue.IsString, PValue.GoString, Value.asString, hs, List.foldl_map]
  | _ => simp [AsValue, PValue.IsString, PValue.GoString, Value.asString]

theorem groupByMultiLoop_ok (fetch_key separator : String) (items : List PValue) :
    ∀ (acc : List (String × List Value)),
      (∀ v ∈ items, ∃ w, deepGet v.held fetch_key = Except.ok w) →
      groupByMultiLoop fetch_key separator acc items = Except.ok
        ((items.flatMap (fun v =>
          (multiTokens fetch_key separator v.held).map (fun t => (t, v.held)))).foldl
          (fun g p => appendGroup g p.1 p.2) acc) := by
  induction items with
  | nil => intro acc _; rfl
  | cons v rest ih =>
    intro acc h
    obtain ⟨w, hw⟩ := h v (List.mem_cons_self _ _)
    rw [groupByMultiLoop_cons fetch_key separator acc v rest w hw,
      ih _ (fun u hu => h u (List.mem_cons_of_mem _ hu))]
    simp only [List.flatMap_cons, List.foldl_append]

theorem groupByMultiLoop_error (fetch_key separator : String) (items : List PValue) :
    ∀ (acc : List (String × List Value)),
      (∃ v ∈ items, ∃ e, deepGet v.held fetch_key = Except.error e) →
      ∃ e, groupByMultiLoop fetch_key separator acc items = Except.error e := by
  induction items with
  | nil => intro acc h; simp at h
  | cons v rest ih =>
    intro acc h
    cases hv : deepGet v.held fetch_key with
    | error e => exact ⟨e, by simp [groupByMultiLoop, deepGetValue, PValue.Interface, hv]⟩
    | ok w =>
      rw [groupByMultiLoop_cons fetch_key separator acc v rest w hv]
      apply ih
      obtain ⟨u, hu, e, he⟩ := h
      rcases List.mem_cons.1 hu with h1 | h1
      · subst h1; rw [hv] at he; exact absurd he (by simp)
      · exact ⟨u, h1, e, he⟩

theorem groupByMulti_eq_pairs (b : Bool) (xs : List Value)
    (fetch_key separator param : String)
    (hp : SplitN2 param "|" = [fetch_key, separator])
    (h : ∀ x ∈ xs, ∃ w, deepGet x fetch_key = Except.ok w) :
    groupByMulti (Value.list b xs) param = Except.ok
      ((xs.flatMap (fun x => (multiTokens fetch_key separator x).map (fun t => (t, x)))).foldl
        (fun g p => appendGroup g p.1 p.2) []) := by
  unfold groupByMulti
  rw [hp]
  simp only []
  rw [groupByMultiLoop_ok fetch_key separator _ [] (by
    intro v hv
    simp only [Value.Iterate, List.mem_map] at hv
    obtain ⟨x, hx, rfl⟩ := hv
    exact h x hx)]
  rw [flatMap_Iterate_list b xs
    (fun x => (multiTokens fetch_key separator x).map (fun t => (t, x)))]

theorem groupByMulti_error (b : Bool) (xs : List Value) (fetch_key separator param : String)
    (hp : SplitN2 param "|" = [fetch_key, separator])
    (h : ∃ x ∈ xs, ∃ e, deepGet x fetch_key = Except.error e) :
    ∃ e, groupByMulti (Value.list b xs) param = Except.error e := by
  unfold groupByMulti
  rw [hp]
  apply groupByMultiLoop_error
  obtain ⟨x, hx, e, he⟩ := h
  exact ⟨PValue.mk x b, by simp [Value.Iterate, hx], e, he⟩

theorem isEmpty_map {α β : Type} (f : α → β) (l : List α) : (l.map f).isEmpty = l.isEmpty := by
  cases l <;> rfl

theorem isEmpty_eq_false_of_mem {α : Type} (l : List α) (a : α) (h : a ∈ l) :
    l.isEmpty = false := by
  cases l with
  | nil => simp at h
  | cons b r => rfl

theorem groupTokens_eq (key : String) (x : Value) (k : String) :
    ((groupTokens key x).map (fun t => (t, x))).filter (fun p => p.1 == k) =
      if resolvesTo key k x && k != "" then [(k, x)] else [] := by
  unfold groupTokens resolvesTo
  cases h : deepGet x key with
  | error e => simp
  | ok v =>
    cases v with
    | str s =>
      by_cases hs : s = ""
      · subst hs
        by_cases hk : k = ""
        · simp [Value.asString, Value.isStr, hk]
        · have hk2 : ¬ "" = k := fun e => hk e.symm
          simp [Value.asString, Value.isStr, hk, hk2]
      · by_cases hk : s = k
        · subst hk
          simp [Value.asString, Value.isStr, hs]
        · simp [Value.asString, Value.isStr, hs, hk]
    | _ => simp [Value.asString, Value.isStr]

theorem groupBy_pairs_filter (xs : List Value) (key k : String) :
    ((xs.flatMap (fun x => (groupTokens key x).map (fun t => (t, x)))).filter
      (fun p => p.1 == k)).map Prod.snd =
      xs.filter (fun x => resolvesTo key k x && k != "") := by
  induction xs with
  | nil => rfl
  | cons x rest ih =>
    simp only [List.flatMap_cons, List.filter_append, List.map_append, ih, groupTokens_eq]
    by_cases h : (resolvesTo key k x && k != "") = true
    · simp [h, List.filter_cons]
    · simp only [Bool.not_eq_true] at h
      simp [h, List.filter_cons]

/-- The group of each name after `groupBy`: the elements whose value at the key path
is that name, a non-empty string, in their order; no group when there is none. -/
theorem mapGet_groupBy (b : Bool) (xs : List Value) (key : String)
    (h : ∀ x ∈ xs, ∃ w, deepGet x key = Except.ok w) :
    ∃ groups, groupBy (Value.list b xs) key = Except.ok groups ∧
      (mapKeySet groups).Nodup ∧
      ∀ k, mapGet groups k =
        if (xs.filter (fun x => resolvesTo key k x && k != "")).isEmpty then none
        else some (xs.filter (fun x => resolvesTo key k x && k != "")) := by
  refine ⟨_, groupBy_eq_pairs b xs key h,
    nodup_foldl_appendGroup _ _ (by simp [mapKeySet]), ?_⟩
  intro k
  rw [mapGet_foldl_appendGroup]
  have h := groupBy_pairs_filter xs key k
  rw [← h, isEmpty_map]
  simp [mapGet]

theorem multiTokens_eq (fetch_key separator : String) (x : Value) (t : String) :
    (((multiTokens fetch_key separator x).map (fun t => (t, x))).filter
      (fun p => p.1 == t)).map Prod.snd =
      List.replicate ((multiTokens fetch_key separator x).count t) x := by
  generalize multiTokens fetch_key separator x = toks
  induction toks with
  | nil => rfl
  | cons a rest ih =>
    by_cases h : a = t
    · subst h
      simp [List.filter_cons, List.replicate_succ, ih]
    · simp [List.filter_cons, h, ih, List.count_cons]

theorem groupByMulti_pairs_filter (xs : List Value) (fetch_key separator t : String) :
    ((xs.flatMap (fun x => (multiTokens fetch_key separator x).map (fun t => (t, x)))).filter
      (fun p => p.1 == t)).map Prod.snd =
      xs.flatMap (fun x => List.replicate ((multiTokens fetch_key separator x).count t) x) := by
  induction xs with
  | nil => rfl
  | cons x rest ih =>
    simp only [List.flatMap_cons, List.filter_append, List.map_append, ih, multiTokens_eq]

theorem cutFirst_pipe (a b : List Char) (h : '|' ∉ a) :
    cutFirst ['|'] (a ++ '|' :: b) = (a, some b) := by
  induction a with
  | nil => simp [cutFirst, List.isPrefixOf]
  | cons c cs ih =>
    have hc : ¬ '|' = c := fun e => h (e ▸ List.mem_cons_self _ _)
    have hcs : '|' ∉ cs := fun e => h (List.mem_cons_of_mem _ e)
    simp [cutFirst, List.isPrefixOf, hc, ih hcs]

theorem SplitN2_pipe (keyPath separator : String) (h : '|' ∉ keyPath.data) :
    SplitN2 (keyPath ++ "|" ++ separator) "|" = [keyPath, separator] := by
  unfold SplitN2
  have h1 : (keyPath ++ "|" ++ separator).data = keyPath.data ++ '|' :: separator.data := by
    simp [String.data_append]
  have h2 : ("|" : String).data = ['|'] := rfl
  rw [h1, h2, cutFirst_pipe _ _ h]

theorem multiTokens_mem (fetch_key separator : String) (x : Value) (t : String) :
    t ∈ multiTokens fetch_key separator x ↔
      ∃ s, s ≠ "" ∧ deepGet x fetch_key = Except.ok (Value.str s) ∧ t ∈ Split s separator := by
  unfold multiTokens
  cases h : deepGet x fetch_key with
  | error e => simp
  | ok v =>
    cases v with
    | str s =>
      by_cases hs : s = ""
      · subst hs
        simp only [if_true, List.not_mem_nil, false_iff]
        rintro ⟨s, hne, he, _⟩
        exact hne (Value.str.inj (Except.ok.inj he)).symm
      · simp only [hs, if_false]
        constructor
        · intro ht; exact ⟨s, hs, rfl, ht⟩
        · rintro ⟨s2, _, he, ht⟩
          rw [Value.str.inj (Except.ok.inj he)]; exact ht
    | _ => simp

/-- The group of each token after `groupByMulti`, for a key path without a pipe. -/
theorem mapGet_groupByMulti (b : Bool) (xs : List Value) (keyPath separator : String)
    (h : '|' ∉ keyPath.data) (hok : ∀ x ∈ xs, ∃ w, deepGet x keyPath = Except.ok w) :
    ∃ groups, groupByMulti (Value.list b xs) (keyPath ++ "|" ++ separator) = Except.ok groups ∧
      (mapKeySet groups).Nodup ∧
      ∀ t, mapGet groups t =
        if (xs.flatMap (fun x =>
            List.replicate ((multiTokens keyPath separator x).count t) x)).isEmpty then none
        else some (xs.flatMap (fun x =>
            List.replicate ((multiTokens keyPath separator x).count t) x)) := by
  refine ⟨_, groupByMulti_eq_pairs b xs keyPath separator _
    (SplitN2_pipe keyPath separator h) hok,
    nodup_foldl_appendGroup _ _ (by simp [mapKeySet]), ?_⟩
  intro t
  rw [mapGet_foldl_appendGroup]
  have h := groupByMulti_pairs_filter xs keyPath separator t
  rw [← h, isEmpty_map]
  simp [mapGet]

theorem mapKeys_foldl (keys : List Value) (acc : List String) :
    (keys.map (fun k => PValue.mk k false)).foldl (fun ret key =>
      if key.IsString && key.GoString != "" then ret ++ [key.GoString] else ret) acc =
      acc ++ keys.filterMap nonEmptyString := by
  induction keys generalizing acc with
  | nil => simp
  | cons key rest ih =>
    simp only [List.map_cons, List.foldl_cons, ih, List.filterMap_cons]
    cases key with
    | str s =>
      by_cases hs : s = ""
      · simp [PValue.IsString, PValue.GoString, Value.asString, nonEmptyString, hs]
      · simp [PValue.IsString, PValue.GoString, Value.asString, nonEmptyString, hs]
    | _ => simp [PValue.IsString, PValue.GoString, Value.asString, nonEmptyString]

theorem mapKeys_foldl_iface (keys : List Value) (acc : List String) :
    (keys.map (fun k => PValue.mk k true)).foldl (fun ret key =>
      if key.IsString && key.GoString != "" then ret ++ [key.GoString] else ret) acc = acc := by
  induction keys generalizing acc with
  | nil => rfl
  | cons key rest ih =>
    simp only [List.map_cons, List.foldl_cons, PValue.IsString, Bool.not_true, Bool.false_and,
      Bool.false_eq_true, if_false]
    have := ih acc
    simp only [PValue.IsString] at this
    exact this

/-- On a map whose key type is not an interface type `mapKeys` returns the non-empty
string keys in the order of iteration. -/
theorem mapKeys_eq (stringKeys : Bool) (entries : List (Value × Value)) :
    mapKeys (Value.map false stringKeys entries) =
      (entries.map Prod.fst).filterMap nonEmptyString := by
  unfold mapKeys
  simp only [Value.Iterate]
  have h := mapKeys_foldl (entries.map Prod.fst) []
  simp only [List.map_map, List.nil_append] at h
  exact h

/-- On a map whose key type is an interface type `mapKeys` returns no key. -/
theorem mapKeys_iface (stringKeys : Bool) (entries : List (Value × Value)) :
    mapKeys (Value.map true stringKeys entries) = [] := by
  unfold mapKeys
  simp only [Value.Iterate]
  have h := mapKeys_foldl_iface (entries.map Prod.fst) []
  simp only [List.map_map] at h
  exact h

theorem nonEmptyString_eq_some (v : Value) (k : String) :
    nonEmptyString v = some k ↔ v = Value.str k ∧ k ≠ "" := by
  cases v with
  | str s =>
    by_cases hs : s = ""
    · subst hs
      simp [nonEmptyString]
      intro e; exact e.symm
    · simp [nonEmptyString, hs]
      intro e; subst e; exact hs
  | _ => simp [nonEmptyString]

/-! ## The expression `re_emptylines` -/

theorem starEnds_space (n : Nat) : ∀ (s : List Char), s.length ≤ n →
    starEnds (Regexp.cls isSpace).ends n s = spaceEnds s := by
  induction n with
  | zero =>
    intro s hs
    have : s = [] := List.length_eq_zero.1 (Nat.le_zero.1 hs)
    subst this
    rfl
  | succ n ih =>
    intro s hs
    cases s with
    | nil => rfl
    | cons c cs =>
      have hcs : cs.length ≤ n := by simpa using hs
      by_cases hc : isSpace c = true
      · simp [starEnds, Regexp.ends, spaceEnds, hc, ih cs hcs]
      · simp [starEnds, Regexp.ends, spaceEnds, hc]

theorem ends_star_space (s : List Char) :
    (Regexp.star (Regexp.cls isSpace)).ends s = spaceEnds s :=
  starEnds_space s.length s (Nat.le_refl _)

theorem lineBreak_ends_nil : lineBreak.ends [] = [] := rfl

theorem lineBreak_ends_cons (c : Char) (cs : List Char) :
    lineBreak.ends (c :: cs) =
      (if c = '\r' then (Regexp.cls (fun c => c == '\n')).ends cs else []) ++
        (if c = '\n' then [cs] else []) := by
  by_cases h1 : c = '\r'
  · subst h1
    simp [lineBreak, Regexp.ends]
  · by_cases h2 : c = '\n'
    · subst h2
      simp [lineBreak, Regexp.ends]
    · simp [lineBreak, Regexp.ends, h1, h2]

theorem lineBreak_ends_not_space (c : Char) (cs : List Char) (h : isSpace c = false) :
    lineBreak.ends (c :: cs) = [] := by
  have h1 : c ≠ '\r' := fun e => by subst e; simp [isSpace] at h
  have h2 : c ≠ '\n' := fun e => by subst e; simp [isSpace] at h
  simp [lineBreak_ends_cons, h1, h2]

theorem emptyline_ends (s : List Char) :
    re_emptyline.ends s = (spaceEnds s).flatMap lineBreak.ends := by
  show ((Regexp.star (Regexp.cls isSpace)).ends s).flatMap lineBreak.ends = _
  rw [ends_star_space]

theorem emptyline_ends_nil : re_emptyline.ends [] = [] := rfl

theorem emptyline_ends_cons (c : Char) (cs : List Char) :
    re_emptyline.ends (c :: cs) =
      if isSpace c then re_emptyline.ends cs ++ lineBreak.ends (c :: cs) else [] := by
  rw [emptyline_ends, emptyline_ends]
  by_cases hc : isSpace c = true
  · simp [spaceEnds, hc]
  · simp only [Bool.not_eq_true] at hc
    simp [spaceEnds, hc, lineBreak_ends_not_space c cs hc]

theorem head?_flatMap_findSome {α β : Type} (f : α → List β) (l : List α) :
    (l.flatMap f).head? = l.findSome? (fun x => (f x).head?) := by
  induction l with
  | nil => rfl
  | cons a rest ih =>
    simp only [List.flatMap_cons, List.findSome?_cons]
    cases hfa : f a with
    | nil => simpa using ih
    | cons b r => simp

theorem leadingBreaks_eq_zero_iff (s : List Char) :
    leadingBreaks s = 0 ↔ afterLastBreak s = none := by
  induction s with
  | nil => simp [leadingBreaks, afterLastBreak]
  | cons c cs ih =>
    by_cases hc : isSpace c = true
    · by_cases hn : c = '\n'
      · subst hn
        cases h : afterLastBreak cs <;> simp [leadingBreaks, afterLastBreak, hc, h]
      · cases h : afterLastBreak cs with
        | none => simpa [leadingBreaks, afterLastBreak, hc, hn, h] using ih.2 h
        | some e =>
          have : leadingBreaks cs ≠ 0 := fun e0 => by
            have := ih.1 e0
            rw [h] at this
            exact absurd this (by simp)
          simpa [leadingBreaks, afterLastBreak, hc, hn, h] using this
    · simp [leadingBreaks, afterLastBreak, hc]

theorem afterLastBreak_some (s e : List Char) (h : afterLastBreak s = some e) :
    leadingBreaks e = 0 ∧ e.length < s.length := by
  induction s with
  | nil => simp [afterLastBreak] at h
  | cons c cs ih =>
    by_cases hc : isSpace c = true
    · cases h2 : afterLastBreak cs with
      | some e2 =>
        simp only [afterLastBreak, hc, if_true, h2, Option.some.injEq] at h
        subst h
        have := ih h2
        exact ⟨this.1, by simp only [List.length_cons]; omega⟩
      | none =>
        by_cases hn : c = '\n'
        · subst hn
          simp only [afterLastBreak, hc, if_true, h2, Option.some.injEq] at h
          subst h
          exact ⟨(leadingBreaks_eq_zero_iff _).2 h2, by simp⟩
        · simp [afterLastBreak, hc, h2, hn] at h
    · simp [afterLastBreak, hc] at h

theorem cls_break_ends (cs : List Char) :
    (Regexp.cls (fun c => c == '\n')).ends cs =
      match cs with
      | [] => []
      | d :: t => if d = '\n' then [t] else [] := by
  cases cs with
  | nil => rfl
  | cons d t => simp [Regexp.ends]

theorem emptyline_ends_shorter (s : List Char) :
    ∀ t ∈ re_emptyline.ends s, t.length < s.length := by
  induction s with
  | nil => simp [emptyline_ends_nil]
  | cons c cs ih =>
    intro t ht
    rw [emptyline_ends_cons] at ht
    split at ht
    · rcases List.mem_append.1 ht with h | h
      · have := ih t h
        simp only [List.length_cons]; omega
      · rw [lineBreak_ends_cons, cls_break_ends] at h
        rcases List.mem_append.1 h with h1 | h1
        · split at h1
          · cases cs with
            | nil => simp at h1
            | cons d r =>
              simp only at h1
              split at h1
              · simp only [List.mem_singleton] at h1
                subst h1
                simp only [List.length_cons]; omega
              · simp at h1
          · simp at h1
        · split at h1
          · simp only [List.mem_singleton] at h1
            subst h1
            simp
          · simp at h1
    · simp at ht

theorem emptyline_ends_head (s : List Char) :
    (re_emptyline.ends s).head? = afterLastBreak s := by
  induction s with
  | nil => rfl
  | cons c cs ih =>
    rw [emptyline_ends_cons]
    by_cases hc : isSpace c = true
    · simp only [hc, if_true, List.head?_append, ih, afterLastBreak]
      cases h2 : afterLastBreak cs with
      | some e => simp
      | none =>
        simp only [Option.none_or]
        rw [lineBreak_ends_cons, cls_break_ends]
        by_cases hn : c = '\n'
        · subst hn
          simp
        · by_cases hr : c = '\r'
          · subst hr
            cases cs with
            | nil => simp
            | cons d r =>
              by_cases hd : d = '\n'
              · subst hd
                cases h3 : afterLastBreak r <;> simp [afterLastBreak, isSpace, h3] at h2
              · simp [hd]
          · simp [hn, hr]
    · simp [hc, afterLastBreak]

theorem star_emptyline_head (n : Nat) : ∀ (t : List Char), t.length ≤ n →
    (starEnds re_emptyline.ends n t).head? = some ((afterLastBreak t).getD t) := by
  induction n with
  | zero =>
    intro t ht
    have : t = [] := List.length_eq_zero.1 (Nat.le_zero.1 ht)
    subst this
    rfl
  | succ n ih =>
    intro t ht
    have hfilter : (re_emptyline.ends t).filter (fun u => u.length < t.length) =
        re_emptyline.ends t :=
      List.filter_eq_self.2 (fun u hu => by simpa using emptyline_ends_shorter t u hu)
    have hhead := emptyline_ends_head t
    simp only [starEnds, hfilter]
    cases hN : re_emptyline.ends t with
    | nil =>
      rw [hN] at hhead
      simp only [List.head?_nil] at hhead
      simp [← hhead]
    | cons u r =>
      rw [hN] at hhead
      simp only [List.head?_cons] at hhead
      have hu : u.length ≤ n := by
        have := emptyline_ends_shorter t u (by rw [hN]; exact List.mem_cons_self _ _)
        omega
      have hu2 : afterLastBreak u = none :=
        (leadingBreaks_eq_zero_iff u).1 (afterLastBreak_some t u hhead.symm).1
      have := ih u hu
      rw [hu2] at this
      simp only [Option.getD_none] at this
      simp only [List.flatMap_cons, List.append_assoc, List.head?_append, this, ← hhead]
      simp

theorem emptylines_ends (s : List Char) :
    re_emptylines.ends s = (re_emptyline.ends s).flatMap
      (fun t1 => (re_emptyline.ends t1).flatMap (Regexp.star re_emptyline).ends) := rfl

theorem emptyline_star_head (t1 : List Char) :
    ((re_emptyline.ends t1).flatMap (Regexp.star re_emptyline).ends).head? =
      afterLastBreak t1 := by
  have hhead := emptyline_ends_head t1
  cases hN : re_emptyline.ends t1 with
  | nil =>
    rw [hN] at hhead
    simpa using hhead
  | cons u r =>
    rw [hN] at hhead
    simp only [List.head?_cons] at hhead
    have hu2 : afterLastBreak u = none :=
      (leadingBreaks_eq_zero_iff u).1 (afterLastBreak_some t1 u hhead.symm).1
    have := star_emptyline_head u.length u (Nat.le_refl _)
    rw [hu2] at this
    simp only [Option.getD_none] at this
    simp only [List.flatMap_cons, List.head?_append]
    rw [show (Regexp.star re_emptyline).ends u = starEnds re_emptyline.ends u.length u from rfl,
      this, ← hhead]
    simp

theorem emptylines_head_findSome (s : List Char) :
    (re_emptylines.ends s).head? = (re_emptyline.ends s).findSome? afterLastBreak := by
  rw [emptylines_ends, head?_flatMap_findSome]
  congr 1
  funext t1
  exact emptyline_star_head t1

/-- The match of `re_emptylines` at the start of a text: when the white space the
text starts with has two line breaks or more, that white space up to its last
line break, and otherwise none. -/
theorem emptylines_match (s : List Char) :
    (re_emptylines.ends s).head? =
      if 2 ≤ leadingBreaks s then afterLastBreak s else none := by
  rw [emptylines_head_findSome]
  induction s with
  | nil => rfl
  | cons c cs ih =>
    rw [emptyline_ends_cons]
    by_cases hc : isSpace c = true
    · simp only [hc, if_true, List.findSome?_append, ih]
      rw [lineBreak_ends_cons, cls_break_ends]
      by_cases hn : c = '\n'
      · subst hn
        have hr : ¬ ('\n' : Char) = '\r' := by decide
        simp only [hr, if_false, List.nil_append, if_true, List.findSome?_cons,
          List.findSome?_nil, leadingBreaks, hc, afterLastBreak]
        cases h2 : afterLastBreak cs with
        | none =>
          have h0 := (leadingBreaks_eq_zero_iff cs).2 h2
          simp [h0]
        | some e =>
          have h0 : leadingBreaks cs ≠ 0 := fun e0 => by
            have := (leadingBreaks_eq_zero_iff cs).1 e0
            rw [h2] at this
            exact absurd this (by simp)
          have h1 : 2 ≤ leadingBreaks cs + 1 := by omega
          simp only [h1, if_true]
          split <;> simp
      · have hlb : leadingBreaks (c :: cs) = leadingBreaks cs := by
          simp [leadingBreaks, hc, hn]
        have halb : afterLastBreak (c :: cs) = afterLastBreak cs := by
          simp only [afterLastBreak, hc, if_true, hn, if_false]
          cases afterLastBreak cs <;> rfl
        rw [hlb, halb]
        simp only [hn, if_false, List.append_nil]
        by_cases hr : c = '\r'
        · simp only [hr, if_true]
          cases cs with
          | nil => simp
          | cons d r =>
            by_cases hd : d = '\n'
            · subst hd
              have hsp : isSpace '\n' = true := by decide
              simp only [if_true, List.findSome?_cons, List.findSome?_nil, leadingBreaks, hsp,
                afterLastBreak]
              cases h3 : afterLastBreak r with
              | none =>
                have h0 := (leadingBreaks_eq_zero_iff r).2 h3
                simp [h0]
              | some e =>
                have h0 : leadingBreaks r ≠ 0 := fun e0 => by
                  have := (leadingBreaks_eq_zero_iff r).1 e0
                  rw [h3] at this
                  exact absurd this (by simp)
                have h1 : 2 ≤ leadingBreaks r + 1 := by omega
                simp [h1]
            · simp [hd]
        · simp [hr]
    · simp only [Bool.not_eq_true] at hc
      simp [hc, leadingBreaks]

/-! ## The replacement of blank lines -/

theorem replaceAllFrom_skip (re : Regexp) (repl : List Char) (s : List Char) :
    ∀ k, replaceAllFrom re repl k s = replaceAllFrom re repl 0 (s.drop k) := by
  induction s with
  | nil => intro k; cases k <;> rfl
  | cons c cs ih =>
    intro k
    cases k with
    | zero => rfl
    | succ k => simpa [replaceAllFrom] using ih k

theorem afterLastBreak_suffix (s e : List Char) (h : afterLastBreak s = some e) :
    e <:+ s := by
  induction s with
  | nil => simp [afterLastBreak] at h
  | cons c cs ih =>
    by_cases hc : isSpace c = true
    · cases h2 : afterLastBreak cs with
      | some e2 =>
        simp only [afterLastBreak, hc, if_true, h2, Option.some.injEq] at h
        subst h
        exact (ih h2).trans (List.suffix_cons c cs)
      | none =>
        by_cases hn : c = '\n'
        · subst hn
          simp only [afterLastBreak, hc, if_true, h2, Option.some.injEq] at h
          subst h
          exact List.suffix_cons _ _
        · simp [afterLastBreak, hc, h2, hn] at h
    · simp [afterLastBreak, hc] at h

theorem drop_of_suffix (cs e : List Char) (h : e <:+ cs) :
    cs.drop (cs.length - e.length) = e := by
  obtain ⟨pre, rfl⟩ := h
  simp

/-- One step of the replacement: at a text that starts with white space holding two
line breaks or more, two line breaks are written and the scan resumes after the
last line break of that white space. -/
theorem replace_emptylines_match (c : Char) (cs e : List Char)
    (h2 : 2 ≤ leadingBreaks (c :: cs)) (he : afterLastBreak (c :: cs) = some e) :
    replaceAllFrom re_emptylines ['\n', '\n'] 0 (c :: cs) =
      '\n' :: '\n' :: replaceAllFrom re_emptylines ['\n', '\n'] 0 e := by
  have hlen := (afterLastBreak_some (c :: cs) e he).2
  have hsuf : e <:+ cs := by
    rcases List.suffix_cons_iff.1 (afterLastBreak_suffix (c :: cs) e he) with h | h
    · rw [h] at hlen; exact absurd hlen (Nat.lt_irrefl _)
    · exact h
  simp only [replaceAllFrom, emptylines_match, h2, if_true, he, hlen]
  rw [replaceAllFrom_skip, drop_of_suffix cs e hsuf]
  rfl

/-- One step of the replacement: a character at which no such white space starts is
copied. -/
theorem replace_emptylines_copy (c : Char) (cs : List Char)
    (h2 : leadingBreaks (c :: cs) < 2) :
    replaceAllFrom re_emptylines ['\n', '\n'] 0 (c :: cs) =
      c :: replaceAllFrom re_emptylines ['\n', '\n'] 0 cs := by
  have : ¬ 2 ≤ leadingBreaks (c :: cs) := by omega
  simp only [replaceAllFrom, emptylines_match, this, if_false]

theorem replace_emptylines_head (s : List Char) (h : leadingBreaks s = 0) :
    (replaceAllFrom re_emptylines ['\n', '\n'] 0 s).head? ≠ some '\n' := by
  cases s with
  | nil => simp [replaceAllFrom]
  | cons c cs =>
    rw [replace_emptylines_copy c cs (by omega)]
    simp only [List.head?_cons, ne_eq, Option.some.injEq]
    intro hc
    subst hc
    have hsp : isSpace '\n' = true := by decide
    simp [leadingBreaks, hsp] at h

theorem leadingBreaks_pos_of_two (s : List Char) (h : 2 ≤ leadingBreaks s) :
    ∃ e, afterLastBreak s = some e := by
  cases h2 : afterLastBreak s with
  | none =>
    have := (leadingBreaks_eq_zero_iff s).2 h2
    omega
  | some e => exact ⟨e, rfl⟩

theorem prefix_three_breaks (l : List Char) (h : ['\n', '\n', '\n'] <+: l) :
    ∃ t, l = '\n' :: '\n' :: '\n' :: t := by
  obtain ⟨t, ht⟩ := h
  exact ⟨t, by simpa using ht.symm⟩

/-- No three line breaks in a row are left by the replacement. -/
theorem replace_emptylines_no_three (n : Nat) : ∀ (s : List Char), s.length ≤ n →
    ¬ ['\n', '\n', '\n'] <:+: replaceAllFrom re_emptylines ['\n', '\n'] 0 s := by
  induction n with
  | zero =>
    intro s hs
    have : s = [] := List.length_eq_zero.1 (Nat.le_zero.1 hs)
    subst this
    simp [replaceAllFrom]
  | succ n ih =>
    intro s hs
    cases s with
    | nil => simp [replaceAllFrom]
    | cons c cs =>
      have hcs : cs.length ≤ n := by simpa using hs
      by_cases h2 : 2 ≤ leadingBreaks (c :: cs)
      · obtain ⟨e, he⟩ := leadingBreaks_pos_of_two _ h2
        obtain ⟨h0, hlen⟩ := afterLastBreak_some _ _ he
        have hhead := replace_emptylines_head e h0
        have hih := ih e (by simp only [List.length_cons] at hlen; omega)
        rw [replace_emptylines_match c cs e h2 he]
        intro hinf
        rcases List.infix_cons_iff.1 hinf with hp | hi
        · obtain ⟨t, ht⟩ := prefix_three_breaks _ hp
          have : replaceAllFrom re_emptylines ['\n', '\n'] 0 e = '\n' :: t := by
            simpa using ht
          rw [this] at hhead
          simp at hhead
        · rcases List.infix_cons_iff.1 hi with hp | hi2
          · obtain ⟨t, ht⟩ := prefix_three_breaks _ hp
            have : replaceAllFrom re_emptylines ['\n', '\n'] 0 e = '\n' :: '\n' :: t := by
              simpa using ht
            rw [this] at hhead
            simp at hhead
          · exact hih hi2
      · have h2lt : leadingBreaks (c :: cs) < 2 := by omega
        rw [replace_emptylines_copy c cs h2lt]
        intro hinf
        rcases List.infix_cons_iff.1 hinf with hp | hi
        · obtain ⟨t, ht⟩ := prefix_three_breaks _ hp
          have hc : c = '\n' := by
            have := List.head_eq_of_cons_eq ht
            exact this
          have htail : replaceAllFrom re_emptylines ['\n', '\n'] 0 cs = '\n' :: '\n' :: t :=
            List.tail_eq_of_cons_eq ht
          subst hc
          have hsp : isSpace '\n' = true := by decide
          have h0 : leadingBreaks cs = 0 := by
            simp only [leadingBreaks, hsp, if_true] at h2lt
            omega
          have hhead := replace_emptylines_head cs h0
          rw [htail] at hhead
          simp at hhead
        · exact ih cs hcs hi

theorem takeWhile_append_of_all {p : Char → Bool} (l1 l2 : List Char)
    (h : ∀ x ∈ l1, p x = true) : (l1 ++ l2).takeWhile p = l1 ++ l2.takeWhile p := by
  induction l1 with
  | nil => rfl
  | cons a r ih =>
    have ha : p a = true := h a (List.mem_cons_self _ _)
    simp [List.takeWhile, ha, ih (fun x hx => h x (List.mem_cons_of_mem _ hx))]

theorem takeWhile_append_of_exists {p : Char → Bool} (l1 l2 : List Char)
    (h : ∃ x ∈ l1, p x = false) : (l1 ++ l2).takeWhile p = l1.takeWhile p := by
  induction l1 with
  | nil => simp at h
  | cons a r ih =>
    by_cases ha : p a = true
    · obtain ⟨x, hx, hpx⟩ := h
      have hr : ∃ x ∈ r, p x = false := by
        rcases List.mem_cons.1 hx with h1 | h1
        · subst h1; rw [ha] at hpx; exact absurd hpx (by simp)
        · exact ⟨x, h1, hpx⟩
      simp [List.takeWhile, ha, ih hr]
    · simp only [Bool.not_eq_true] at ha
      simp [List.takeWhile, ha]

theorem trailingSpace_cons (c : Char) (run : List Char) :
    trailingSpace (c :: run) =
      if '\n' ∈ run then trailingSpace run else if c = '\n' then run else c :: run := by
  unfold trailingSpace
  rw [List.reverse_cons]
  by_cases h : '\n' ∈ run
  · rw [if_pos h, takeWhile_append_of_exists _ _ ⟨'\n', List.mem_reverse.2 h, by simp⟩]
  · rw [if_neg h, takeWhile_append_of_all _ _ (fun x hx => by
      have hx2 : x ∈ run := List.mem_reverse.1 hx
      have : x ≠ '\n' := fun e => h (e ▸ hx2)
      simp [this])]
    by_cases hc : c = '\n'
    · subst hc
      simp [List.takeWhile]
    · have hb : (c != '\n') = true := by simp [hc]
      simp [List.takeWhile, hc, hb]

theorem leadingBreaks_of_boundary (rest : List Char)
    (hb : ∀ c ∈ rest.head?, isSpace c = false) : leadingBreaks rest = 0 := by
  cases rest with
  | nil => rfl
  | cons c cs =>
    have := hb c (by simp)
    simp [leadingBreaks, this]

theorem leadingBreaks_run (run rest : List Char) (hrun : ∀ c ∈ run, isSpace c = true)
    (hb : ∀ c ∈ rest.head?, isSpace c = false) :
    leadingBreaks (run ++ rest) = run.count '\n' := by
  induction run with
  | nil => simpa using leadingBreaks_of_boundary rest hb
  | cons c r ih =>
    have hc : isSpace c = true := hrun c (List.mem_cons_self _ _)
    have := ih (fun x hx => hrun x (List.mem_cons_of_mem _ hx))
    by_cases hn : c = '\n'
    · subst hn
      simp [leadingBreaks, hc, this]
    · have hn2 : ¬ ('\n' : Char) = c := fun e => hn e.symm
      simp [leadingBreaks, hc, this, hn, List.count_cons, hn2]

theorem afterLastBreak_run (run rest : List Char) (hrun : ∀ c ∈ run, isSpace c = true)
    (hb : ∀ c ∈ rest.head?, isSpace c = false) :
    afterLastBreak (run ++ rest) =
      if '\n' ∈ run then some (trailingSpace run ++ rest) else none := by
  induction run with
  | nil =>
    simpa using (leadingBreaks_eq_zero_iff rest).1 (leadingBreaks_of_boundary rest hb)
  | cons c r ih =>
    have hc : isSpace c = true := hrun c (List.mem_cons_self _ _)
    have hih := ih (fun x hx => hrun x (List.mem_cons_of_mem _ hx))
    rw [List.cons_append]
    simp only [afterLastBreak, hc, if_true, trailingSpace_cons]
    rw [hih]
    by_cases hr : '\n' ∈ r
    · simp [hr]
    · by_cases hn : c = '\n'
      · subst hn
        simp [hr]
      · have hn2 : ¬ ('\n' : Char) = c := fun e => hn e.symm
        simp [hr, hn, hn2]

theorem trailingSpace_no_break (run : List Char) : '\n' ∉ trailingSpace run := by
  induction run with
  | nil => simp [trailingSpace]
  | cons c r ih =>
    rw [trailingSpace_cons]
    split
    · exact ih
    · next hr =>
      split
      · exact hr
      · next hc =>
        intro hm
        rcases List.mem_cons.1 hm with h | h
        · exact hc h.symm
        · exact hr h

theorem trailingSpace_subset (run : List Char) : ∀ c ∈ trailingSpace run, c ∈ run := by
  intro c hc
  unfold trailingSpace at hc
  exact List.mem_reverse.1 ((List.takeWhile_sublist _).subset (List.mem_reverse.1 hc))

/-- White space with fewer than two line breaks is copied by the replacement. -/
theorem replace_emptylines_copy_run (run rest : List Char)
    (hrun : ∀ c ∈ run, isSpace c = true) (hb : ∀ c ∈ rest.head?, isSpace c = false)
    (hcount : run.count '\n' < 2) :
    replaceAllFrom re_emptylines ['\n', '\n'] 0 (run ++ rest) =
      run ++ replaceAllFrom re_emptylines ['\n', '\n'] 0 rest := by
  induction run with
  | nil => rfl
  | cons c r ih =>
    have hlb := leadingBreaks_run (c :: r) rest hrun hb
    have hr : r.count '\n' < 2 := by
      have := List.count_le_count_cons '\n' c r
      omega
    simp only [List.cons_append]
    rw [replace_emptylines_copy c (r ++ rest) (by
      rw [List.cons_append] at hlb
      rw [hlb]; exact hcount),
      ih (fun x hx => hrun x (List.mem_cons_of_mem _ hx)) hr]

/-- A maximal stretch of white space is replaced by its collapse. -/
theorem replace_emptylines_run (run rest : List Char)
    (hrun : ∀ c ∈ run, isSpace c = true) (hb : ∀ c ∈ rest.head?, isSpace c = false) :
    replaceAllFrom re_emptylines ['\n', '\n'] 0 (run ++ rest) =
      collapseRun run ++ replaceAllFrom re_emptylines ['\n', '\n'] 0 rest := by
  unfold collapseRun
  by_cases hcount : 2 ≤ run.count '\n'
  · rw [if_pos hcount]
    have hmem : '\n' ∈ run := List.count_pos_iff.1 (by omega)
    have hlb := leadingBreaks_run run rest hrun hb
    have halb := afterLastBreak_run run rest hrun hb
    rw [if_pos hmem] at halb
    cases run with
    | nil => simp at hmem
    | cons c r =>
      simp only [List.cons_append] at hlb halb ⊢
      rw [replace_emptylines_match c (r ++ rest) _ (by rw [hlb]; exact hcount) halb,
        replace_emptylines_copy_run (trailingSpace (c :: r)) rest
          (fun x hx => hrun x (trailingSpace_subset _ x hx)) hb
          (by
            have := List.count_eq_zero.2 (trailingSpace_no_break (c :: r))
            omega)]
  · rw [if_neg hcount]
    exact replace_emptylines_copy_run run rest hrun hb (by omega)

theorem replace_emptylines_eq_collapseFrom (s : List Char) :
    ∀ (run : List Char), (∀ c ∈ run, isSpace c = true) →
      replaceAllFrom re_emptylines ['\n', '\n'] 0 (run ++ s) = collapseFrom run s := by
  induction s with
  | nil =>
    intro run hrun
    have := replace_emptylines_run run [] hrun (by simp)
    simpa [collapseFrom, replaceAllFrom] using this
  | cons c cs ih =>
    intro run hrun
    by_cases hc : isSpace c = true
    · have := ih (run ++ [c]) (fun x hx => by
        rcases List.mem_append.1 hx with h | h
        · exact hrun x h
        · simp only [List.mem_singleton] at h; subst h; exact hc)
      simpa [collapseFrom, hc] using this
    · simp only [Bool.not_eq_true] at hc
      have h1 := replace_emptylines_run run (c :: cs) hrun (by simpa using hc)
      have h2 := replace_emptylines_copy c cs (by simp [leadingBreaks, hc])
      have h3 := ih [] (by simp)
      simp only [List.nil_append] at h3
      simp only [collapseFrom, hc, Bool.false_eq_true, if_false, h1, h2, h3]

/-! ## The claims on the path resolver and the grouping filters -/

theorem filter_resolvesTo_nonempty (xs : List Value) (key k : String) (hk : k ≠ "") :
    xs.filter (fun x => resolvesTo key k x && k != "") =
      xs.filter (fun x => resolvesTo key k x) := by
  have hb : (k != "") = true := by simp [hk]
  simp [hb]

theorem groups_some (xs : List Value) (key : String) (groups : List (String × List Value))
    (hget : ∀ k, mapGet groups k =
      if (xs.filter (fun x => resolvesTo key k x && k != "")).isEmpty then none
      else some (xs.filter (fun x => resolvesTo key k x && k != "")))
    (k : String) (grp : List Value) (h : mapGet groups k = some grp) :
    k ≠ "" ∧ grp ≠ [] ∧ grp = xs.filter (fun x => resolvesTo key k x) := by
  rw [hget k] at h
  by_cases hk : k = ""
  · subst hk
    simp at h
  · rw [filter_resolvesTo_nonempty xs key k hk] at h
    split at h
    · exact absurd h (by simp)
    · next hne =>
      rw [List.isEmpty_iff] at hne
      have := Option.some.inj h
      exact ⟨hk, this ▸ hne, this.symm⟩

theorem groups_mem_keys (xs : List Value) (key : String) (groups : List (String × List Value))
    (hget : ∀ k, mapGet groups k =
      if (xs.filter (fun x => resolvesTo key k x && k != "")).isEmpty then none
      else some (xs.filter (fun x => resolvesTo key k x && k != "")))
    (k : String) :
    k ∈ mapKeySet groups ↔
      k ≠ "" ∧ ∃ x ∈ xs, deepGet x key = Except.ok (Value.str k) := by
  rw [mem_mapKeySet_iff]
  constructor
  · intro h
    cases hg : mapGet groups k with
    | none => exact absurd hg h
    | some grp =>
      obtain ⟨hk, hne, heq⟩ := groups_some xs key groups hget k grp hg
      obtain ⟨x, hx⟩ := List.exists_mem_of_ne_nil _ hne
      rw [heq, List.mem_filter] at hx
      exact ⟨hk, x, hx.1, (resolvesTo_iff key k x).1 hx.2⟩
  · rintro ⟨hk, x, hx, hv⟩
    have hmem : x ∈ xs.filter (fun x => resolvesTo key k x) :=
      List.mem_filter.2 ⟨hx, (resolvesTo_iff key k x).2 hv⟩
    rw [hget k, filter_resolvesTo_nonempty xs key k hk,
      isEmpty_eq_false_of_mem _ _ hmem]
    simp

theorem deepGet_safe_ok (x : Value) (key : String) (h : x.safe = true) :
    ∃ w, deepGet x key = Except.ok w :=
  ⟨_, deepGet_eq x key h⟩

/-- C4: for every list whose elements `deepGet` resolves at the key path without a
panic, the map returned by the `groupBy` filter has each name once; a name is in
it exactly when it is a non-empty string that some element resolves to at the key
path; the group of a name is the sub-list, in the original order, of the elements
resolving to that name; no group is empty; an element that resolves to no
non-empty string is in no group. Elements whose structs have exported fields and
whose maps take string keys all resolve without a panic; a panic of `deepGet` on
some element is the outcome of the filter; and the three containers with images
web, web and db are grouped as web: [c1, c2], db: [c3]. -/
theorem groupBy_groups :
    (∀ (ifaceElems : Bool) (xs : List Value) (key : String),
      (∀ x ∈ xs, ∃ w, deepGet x key = Except.ok w) →
      ∃ groups, groupBy (Value.list ifaceElems xs) key = Except.ok groups ∧
        (mapKeySet groups).Nodup ∧
        (∀ k, k ∈ mapKeySet groups ↔
          k ≠ "" ∧ ∃ x ∈ xs, deepGet x key = Except.ok (Value.str k)) ∧
        (∀ k, k ∈ mapKeySet groups →
          mapGet groups k = some (xs.filter (fun x => resolvesTo key k x))) ∧
        (∀ k grp, mapGet groups k = some grp → grp ≠ []) ∧
        (∀ x k grp, (∀ s, deepGet x key = Except.ok (Value.str s) → s = "") →
          mapGet groups k = some grp → x ∉ grp)) ∧
    (∀ (xs : List Value) (key : String), (∀ x ∈ xs, x.safe = true) →
      ∀ x ∈ xs, ∃ w, deepGet x key = Except.ok w) ∧
    (∀ (ifaceElems : Bool) (xs : List Value) (key : String),
      (∃ x ∈ xs, ∃ e, deepGet x key = Except.error e) →
      ∃ e, groupBy (Value.list ifaceElems xs) key = Except.error e) ∧
    groupBy (Value.list false
        [Value.struct [("ID", true, Value.str "c1"), ("Image", true, Value.str "web")],
          Value.struct [("ID", true, Value.str "c2"), ("Image", true, Value.str "web")],
          Value.struct [("ID", true, Value.str "c3"), ("Image", true, Value.str "db")]])
        "Image" =
      Except.ok
        [("web", [Value.struct [("ID", true, Value.str "c1"), ("Image", true, Value.str "web")],
          Value.struct [("ID", true, Value.str "c2"), ("Image", true, Value.str "web")]]),
        ("db", [Value.struct [("ID", true, Value.str "c3"), ("Image", true, Value.str "db")]])] := by
  refine ⟨fun b xs key hok => ?_, fun xs key hs x hx => deepGet_safe_ok x key (hs x hx),
    fun b xs key h => groupBy_error b xs key h, rfl⟩
  obtain ⟨groups, hg, hnodup, hget⟩ := mapGet_groupBy b xs key hok
  refine ⟨groups, hg, hnodup, groups_mem_keys xs key groups hget, ?_, ?_, ?_⟩
  · intro k hk
    rw [mem_mapKeySet_iff] at hk
    cases hgk : mapGet groups k with
    | none => exact absurd hgk hk
    | some grp => rw [(groups_some xs key groups hget k grp hgk).2.2]
  · intro k grp hgk
    exact (groups_some xs key groups hget k grp hgk).2.1
  · intro x k grp hx hgk hmem
    obtain ⟨hk, _, heq⟩ := groups_some xs key groups hget k grp hgk
    rw [heq, List.mem_filter] at hmem
    exact hk (hx k ((resolvesTo_iff key k x).1 hmem.2))

/-- Witness of C4: in the example both elements resolve without a panic and the
group of the name web is the sub-list of the containers whose image is web. -/
theorem groupBy_groups_witness :
    ∃ groups, groupBy (Value.list false [Value.struct [("Image", true, Value.str "web")],
        Value.struct [("Image", true, Value.str "db")]]) "Image" = Except.ok groups ∧
      mapGet groups "web" = some ([Value.struct [("Image", true, Value.str "web")],
        Value.struct [("Image", true, Value.str "db")]].filter
          (fun x => resolvesTo "Image" "web" x)) := by
  obtain ⟨groups, hg, _, hmem, hget, _⟩ := groupBy_groups.1 false
    [Value.struct [("Image", true, Value.str "web")],
      Value.struct [("Image", true, Value.str "db")]] "Image"
    (fun x hx => groupBy_groups.2.1 _ "Image" (by decide) x hx)
  exact ⟨groups, hg, hget "web" ((hmem "web").2 ⟨by decide, _, List.mem_cons_self _ _, rfl⟩)⟩

/-- C3, as stated, fails: on the path `a.` the code returns the entry `a` itself,
where the reference resolver looks the empty segment up in it and is absent; and
`deepGet` aborts with a panic of `reflect` on a field that is not exported and on
a map whose key type a string cannot be assigned to. -/
theorem deepGet_trailing_dot :
    deepGet (Value.map false true [(Value.str "a", Value.str "x")]) "a." =
      Except.ok (Value.str "x") ∧
    resolve (Value.map false true [(Value.str "a", Value.str "x")]) "a." = Value.nil ∧
    deepGet (Value.map false true [(Value.str "a", Value.str "x")]) "a." ≠
      Except.ok (resolve (Value.map false true [(Value.str "a", Value.str "x")]) "a.") ∧
    deepGet (Value.struct [("image", false, Value.str "web")]) "image" =
      Except.error panicUnexported ∧
    deepGet (Value.map false false [(Value.int 1, Value.str "web")]) "a" =
      Except.error panicNotAssignable := by
  refine ⟨rfl, rfl, ?_, rfl, rfl⟩
  rw [show deepGet (Value.map false true [(Value.str "a", Value.str "x")]) "a." =
      Except.ok (Value.str "x") from rfl,
    show resolve (Value.map false true [(Value.str "a", Value.str "x")]) "a." =
      Value.nil from rfl]
  simp

/-- C3 (amended): on every value whose structs have only exported fields and whose
maps have a key type a string can be assigned to, and on every path, `deepGet`
returns without a panic the value found by looking up, one after the other, the
segments of the path between its dots, a final empty segment left out, and is
absent as soon as a segment is missing or the current value is neither a record
nor a map; on every path that does not end in a dot this is the reference
resolver. On any value its recursion ends within the budget, and whenever it
returns a value this is that value. The three examples hold, on maps and on
records. -/
theorem deepGet_resolves :
    (∀ (v : Value) (p : String), v.safe = true →
      deepGet v p = Except.ok (resolveSegments v (dropFinalEmpty (Split p ".")))) ∧
    (∀ (v : Value) (p : String), v.safe = true → p.data.getLast? ≠ some '.' →
      deepGet v p = Except.ok (resolve v p)) ∧
    (∀ (v : Value) (p : String), deepGetAux (p.length + 1) v p = some (deepGet v p)) ∧
    (∀ (v w : Value) (p : String), deepGet v p = Except.ok w →
      w = resolveSegments v (dropFinalEmpty (Split p "."))) ∧
    (∀ (v : Value), deepGet v "" = Except.ok v) ∧
    deepGet (Value.map false true
        [(Value.str "a", Value.map false true [(Value.str "b", Value.str "x")])]) "a.b" =
      Except.ok (Value.str "x") ∧
    deepGet (Value.map false true
        [(Value.str "a", Value.map false true [(Value.str "b", Value.str "x")])]) "a.c" =
      Except.ok Value.nil ∧
    deepGet (Value.int 5) "a" = Except.ok Value.nil ∧
    deepGet (Value.struct [("A", true, Value.struct [("B", true, Value.str "x")])]) "A.B" =
      Except.ok (Value.str "x") ∧
    deepGet (Value.struct [("A", true, Value.struct [("B", true, Value.str "x")])]) "A.C" =
      Except.ok Value.nil :=
  ⟨deepGet_eq, deepGet_eq_resolve, deepGetAux_total, deepGet_ok, fun _ => rfl,
    rfl, rfl, rfl, rfl, rfl⟩

/-- Witness of C3 (amended): a safe map and the path `a.b`, which does not end in a
dot. -/
theorem deepGet_resolves_witness :
    deepGet (Value.map false true
        [(Value.str "a", Value.map false true [(Value.str "b", Value.str "x")])]) "a.b" =
      Except.ok (resolve (Value.map false true
        [(Value.str "a", Value.map false true [(Value.str "b", Value.str "x")])]) "a.b") :=
  deepGet_resolves.2.1 _ "a.b" (by decide) (by decide)

theorem mem_flatMap_replicate (xs : List Value) (fetch_key separator t : String) (y : Value) :
    y ∈ xs.flatMap (fun x => List.replicate ((multiTokens fetch_key separator x).count t) x) ↔
      y ∈ xs ∧ t ∈ multiTokens fetch_key separator y := by
  simp only [List.mem_flatMap, List.mem_replicate]
  constructor
  · rintro ⟨x, hx, hc, rfl⟩
    exact ⟨hx, List.count_pos_iff.1 (Nat.pos_of_ne_zero hc)⟩
  · rintro ⟨hy, ht⟩
    exact ⟨y, hy, Nat.pos_iff_ne_zero.1 (List.count_pos_iff.2 ht), rfl⟩

/-- C5, as stated, fails: with the key path `a|b` and the separator `,` the
parameter is `a|b|,`, the element resolves at the key path to `x,y`, whose split
contains `x`, and the filter, which reads the key path `a`, files it nowhere. -/
theorem groupByMulti_pipe_in_keyPath :
    deepGet (Value.map false true [(Value.str "a|b", Value.str "x,y")]) "a|b" =
      Except.ok (Value.str "x,y") ∧
    "x" ∈ Split "x,y" "," ∧
    groupByMulti (Value.list true [Value.map false true [(Value.str "a|b", Value.str "x,y")]])
      ("a|b" ++ "|" ++ ",") = Except.ok [] :=
  ⟨rfl, by decide, rfl⟩

/-- C5 (amended): for every list whose elements `deepGet` resolves at the key path
without a panic, every key path without a pipe and every separator passed as the
parameter `keyPath|separator`, `groupByMulti` returns a map with each token once;
a token is in it exactly when some element resolves at the key path to a
non-empty string whose split on the separator contains the token; the group of a
token lists the elements in their original order, each once per occurrence of the
token among its pieces; an element that resolves to no non-empty string is in no
group. Elements whose structs have exported fields and whose maps take string
keys all resolve without a panic; a panic of `deepGet` on some element is the
outcome of the filter; and an element whose field is `a,b,c` is in the groups a,
b and c. -/
theorem groupByMulti_groups :
    (∀ (ifaceElems : Bool) (xs : List Value) (keyPath separator : String),
      '|' ∉ keyPath.data → (∀ x ∈ xs, ∃ w, deepGet x keyPath = Except.ok w) →
      ∃ groups, groupByMulti (Value.list ifaceElems xs) (keyPath ++ "|" ++ separator) =
          Except.ok groups ∧
        (mapKeySet groups).Nodup ∧
        (∀ t, t ∈ mapKeySet groups ↔ ∃ x ∈ xs, ∃ s, s ≠ "" ∧
          deepGet x keyPath = Except.ok (Value.str s) ∧ t ∈ Split s separator) ∧
        (∀ t, t ∈ mapKeySet groups → mapGet groups t = some (xs.flatMap (fun x =>
          List.replicate ((multiTokens keyPath separator x).count t) x))) ∧
        (∀ x t grp, (∀ s, deepGet x keyPath = Except.ok (Value.str s) → s = "") →
          mapGet groups t = some grp → x ∉ grp)) ∧
    (∀ (xs : List Value) (keyPath : String), (∀ x ∈ xs, x.safe = true) →
      ∀ x ∈ xs, ∃ w, deepGet x keyPath = Except.ok w) ∧
    (∀ (ifaceElems : Bool) (xs : List Value) (keyPath separator : String),
      '|' ∉ keyPath.data → (∃ x ∈ xs, ∃ e, deepGet x keyPath = Except.error e) →
      ∃ e, groupByMulti (Value.list ifaceElems xs) (keyPath ++ "|" ++ separator) =
        Except.error e) ∧
    groupByMulti (Value.list false [Value.struct [("Tags", true, Value.str "a,b,c")]])
        "Tags|," =
      Except.ok [("a", [Value.struct [("Tags", true, Value.str "a,b,c")]]),
        ("b", [Value.struct [("Tags", true, Value.str "a,b,c")]]),
        ("c", [Value.struct [("Tags", true, Value.str "a,b,c")]])] := by
  refine ⟨fun b xs keyPath separator hpipe hres => ?_,
    fun xs key hs x hx => ⟨_, deepGet_eq x key (hs x hx)⟩,
    fun b xs keyPath separator hpipe h =>
      groupByMulti_error b xs keyPath separator _ (SplitN2_pipe keyPath separator hpipe) h,
    rfl⟩
  obtain ⟨groups, hok, hnodup, hget⟩ := mapGet_groupByMulti b xs keyPath separator hpipe hres
  have hsome : ∀ t grp, mapGet groups t = some grp →
      grp = xs.flatMap (fun x =>
        List.replicate ((multiTokens keyPath separator x).count t) x) ∧ grp ≠ [] := by
    intro t grp hg
    rw [hget t] at hg
    split at hg
    · exact absurd hg (by simp)
    · next hne =>
      rw [List.isEmpty_iff] at hne
      have := Option.some.inj hg
      exact ⟨this.symm, this ▸ hne⟩
  refine ⟨groups, hok, hnodup, ?_, ?_, ?_⟩
  · intro t
    rw [mem_mapKeySet_iff]
    constructor
    · intro h
      cases hg : mapGet groups t with
      | none => exact absurd hg h
      | some grp =>
        obtain ⟨heq, hne⟩ := hsome t grp hg
        obtain ⟨y, hy⟩ := List.exists_mem_of_ne_nil _ hne
        rw [heq, mem_flatMap_replicate] at hy
        exact ⟨y, hy.1, (multiTokens_mem keyPath separator y t).1 hy.2⟩
    · rintro ⟨x, hx, hs⟩
      have hmem := (mem_flatMap_replicate xs keyPath separator t x).2
        ⟨hx, (multiTokens_mem keyPath separator x t).2 hs⟩
      rw [hget t, isEmpty_eq_false_of_mem _ _ hmem]
      simp
  · intro t ht
    rw [mem_mapKeySet_iff] at ht
    cases hg : mapGet groups t with
    | none => exact absurd hg ht
    | some grp => rw [(hsome t grp hg).1]
  · intro x t grp hx hg hmem
    rw [(hsome t grp hg).1, mem_flatMap_replicate] at hmem
    obtain ⟨s, hs, hv, _⟩ := (multiTokens_mem keyPath separator x t).1 hmem.2
    exact hs (hx s hv)

/-- Witness of C5 (amended): the key path `Tags` has no pipe and the element
resolves without a panic. -/
theorem groupByMulti_groups_witness :
    ∃ groups, groupByMulti (Value.list false [Value.struct [("Tags", true, Value.str "a,a")]])
        ("Tags" ++ "|" ++ ",") = Except.ok groups ∧
      mapGet groups "a" = some [Value.struct [("Tags", true, Value.str "a,a")],
        Value.struct [("Tags", true, Value.str "a,a")]] := by
  obtain ⟨groups, hok, _, _, hget, _⟩ := groupByMulti_groups.1 false
    [Value.struct [("Tags", true, Value.str "a,a")]] "Tags" "," (by decide)
    (fun x hx => groupByMulti_groups.2.1 _ "Tags" (by decide) x hx)
  refine ⟨groups, hok, ?_⟩
  have h2 : groups = [("a", [Value.struct [("Tags", true, Value.str "a,a")],
      Value.struct [("Tags", true, Value.str "a,a")]])] :=
    Except.ok.inj (hok.symm.trans rfl)
  rw [h2]
  rfl

/-- C10, as stated, fails: the empty string is a string key of the first map and is
not among the keys the filter returns; and on a map with keys of an interface
type, the only maps that hold string keys beside other keys, the filter returns
no key, where `a` and `b` are string keys of the map. -/
theorem mapKeys_drops_empty_key :
    Value.str "" ∈
      [(Value.str "", Value.int 1), (Value.str "a", Value.int 2)].map Prod.fst ∧
    mapKeys (Value.map false true
      [(Value.str "", Value.int 1), (Value.str "a", Value.int 2)]) = ["a"] ∧
    mapKeys (Value.map true true [(Value.str "a", Value.int 1), (Value.int 2, Value.int 3),
      (Value.str "b", Value.int 5)]) = [] :=
  ⟨by simp, rfl, rfl⟩

/-- C10 (amended): for every mapping whose key type is not an interface type, such
as `map[string]T`, `mapKeys` returns the non-empty string keys of the mapping in
the iteration order of the input, leaving out the empty string and any key that
is not a string; when the keys of the mapping are distinct, every non-empty
string key occurs in the result exactly once and nothing else occurs. -/
theorem mapKeys_keys :
    (∀ (stringKeys : Bool) (entries : List (Value × Value)),
      mapKeys (Value.map false stringKeys entries) =
        (entries.map Prod.fst).filterMap nonEmptyString) ∧
    (∀ (stringKeys : Bool) (entries : List (Value × Value)), (entries.map Prod.fst).Nodup →
      (mapKeys (Value.map false stringKeys entries)).Nodup ∧
      ∀ k, k ∈ mapKeys (Value.map false stringKeys entries) ↔
        k ≠ "" ∧ Value.str k ∈ entries.map Prod.fst) := by
  refine ⟨mapKeys_eq, fun stringKeys entries hnodup => ⟨?_, fun k => ?_⟩⟩
  · rw [mapKeys_eq]
    refine List.Nodup.filterMap ?_ hnodup
    intro a a2 b hb hb2
    rw [Option.mem_def, nonEmptyString_eq_some] at hb hb2
    rw [hb.1, hb2.1]
  · rw [mapKeys_eq, List.mem_filterMap]
    constructor
    · rintro ⟨v, hv, hk⟩
      rw [nonEmptyString_eq_some] at hk
      exact ⟨hk.2, hk.1 ▸ hv⟩
    · rintro ⟨hk, hv⟩
      exact ⟨Value.str k, hv, (nonEmptyString_eq_some _ _).2 ⟨rfl, hk⟩⟩

/-- Witness of C10 (amended): a `map[string]int` with the keys `a`, the empty string
and `b`. -/
theorem mapKeys_keys_witness :
    (mapKeys (Value.map false true [(Value.str "a", Value.int 1),
      (Value.str "", Value.int 4), (Value.str "b", Value.int 5)])).Nodup ∧
    ∀ k, k ∈ mapKeys (Value.map false true [(Value.str "a", Value.int 1),
        (Value.str "", Value.int 4), (Value.str "b", Value.int 5)]) ↔
      k ≠ "" ∧ Value.str k ∈ [(Value.str "a", Value.int 1),
        (Value.str "", Value.int 4), (Value.str "b", Value.int 5)].map Prod.fst :=
  mapKeys_keys.2 true _ (by simp)

/-! ## The claims on the event loop, the environment entries and the materializer -/

theorem mainLoop_eq_iterate {σ : Type} (gen : σ → σ) (events : List Event) (s : σ) :
    mainLoop gen events s = gen^[events.countP triggers] s := by
  induction events generalizing s with
  | nil => rfl
  | cons e rest ih =>
    by_cases h : triggers e = true
    · simp only [mainLoop, h, if_true, List.countP_cons_of_pos _ _ h, ih,
        Function.iterate_succ_apply]
    · simp only [mainLoop, h, if_false, List.countP_cons_of_neg _ _ h, ih]
      rfl

theorem mainLoop_append {σ : Type} (gen : σ → σ) (e1 e2 : List Event) (s : σ) :
    mainLoop gen (e1 ++ e2) s = mainLoop gen e2 (mainLoop gen e1 s) := by
  induction e1 generalizing s with
  | nil => rfl
  | cons e rest ih =>
    by_cases h : triggers e = true
    · simp [mainLoop, h, ih]
    · simp [mainLoop, h, ih]

/-- C7: on every finite sequence of events the loop runs `generateFromContainers`
once for each event whose status is start, stop or die and for no other event:
the state after any received prefix is that of as many regenerations as the prefix
has such events, so the count of regenerations is the count of such events and the
events are handled in receipt order; the statuses create, start, stop, destroy
trigger exactly two regenerations. -/
theorem mainLoop_regenerations :
    (∀ (e : Event), triggers e = true ↔
      e.Status = "start" ∨ e.Status = "stop" ∨ e.Status = "die") ∧
    (∀ (σ : Type) (gen : σ → σ) (events : List Event) (s : σ),
      mainLoop gen events s = gen^[events.countP triggers] s) ∧
    (∀ (events : List Event), mainLoop Nat.succ events 0 = events.countP triggers) ∧
    (∀ (σ : Type) (gen : σ → σ) (received later : List Event) (s : σ),
      mainLoop gen (received ++ later) s =
        mainLoop gen later (gen^[received.countP triggers] s)) ∧
    mainLoop Nat.succ [Event.mk "c" "create" "img", Event.mk "c" "start" "img",
      Event.mk "c" "stop" "img", Event.mk "c" "destroy" "img"] 0 = 2 := by
  refine ⟨fun e => by simp [triggers, or_assoc], fun σ gen events s => mainLoop_eq_iterate gen events s,
    fun events => ?_, fun σ gen e1 e2 s => ?_, rfl⟩
  · rw [mainLoop_eq_iterate]
    simp [Function.iterate_succ_apply, Nat.succ_iterate]
  · rw [mainLoop_append, mainLoop_eq_iterate gen e1]

theorem takeWhile_split (c0 : Char) (s : List Char) (h : c0 ∈ s) :
    ∃ rest, s = s.takeWhile (fun c => c != c0) ++ c0 :: rest ∧
      c0 ∉ s.takeWhile (fun c => c != c0) := by
  induction s with
  | nil => simp at h
  | cons c cs ih =>
    by_cases hc : c = c0
    · subst hc
      exact ⟨cs, by simp [List.takeWhile], by simp [List.takeWhile]⟩
    · have hmem : c0 ∈ cs := by
        rcases List.mem_cons.1 h with h1 | h1
        · exact absurd h1.symm hc
        · exact h1
      obtain ⟨rest, h1, h2⟩ := ih hmem
      have hb : (c != c0) = true := by simp [hc]
      refine ⟨rest, ?_, ?_⟩
      · simp only [List.takeWhile, hb, List.cons_append]
        rw [← h1]
      · simp only [List.takeWhile, hb, List.mem_cons, not_or]
        exact ⟨fun e => hc e.symm, h2⟩

theorem Split_eq_of_mem (entry : String) (h : '=' ∈ entry.data) :
    ∃ part1 rest, Split entry "=" =
      String.mk (entry.data.takeWhile (fun c => c != '=')) :: part1 :: rest := by
  obtain ⟨r, h1, h2⟩ := takeWhile_split '=' entry.data h
  have hs : Split entry "=" = (splitSkip ['='] 0 entry.data).map String.mk :=
    Split_single entry '='
  have h3 : splitSkip ['='] 0 entry.data =
      entry.data.takeWhile (fun c => c != '=') :: splitSkip ['='] 0 r := by
    conv_lhs => rw [h1]
    exact splitSkip_free_append '=' _ r h2
  match hr : splitSkip ['='] 0 r with
  | [] => exact absurd hr (splitSkip_single_ne_nil '=' r)
  | q :: t =>
    rw [hr] at h3
    exact ⟨String.mk q, t.map String.mk, by rw [hs, h3]; rfl⟩

theorem Split_eq_of_not_mem (entry : String) (h : '=' ∉ entry.data) :
    Split entry "=" = [entry] := by
  have hs : Split entry "=" = (splitSkip ['='] 0 entry.data).map String.mk :=
    Split_single entry '='
  rw [hs, splitSkip_free '=' _ h]
  rfl

theorem addEnvEntry_of_mem (env : List (String × String)) (entry : String)
    (h : '=' ∈ entry.data) :
    ∃ value, addEnvEntry env entry = Except.ok
      (mapSet env (String.mk (entry.data.takeWhile (fun c => c != '='))) value) := by
  obtain ⟨part1, rest, hs⟩ := Split_eq_of_mem entry h
  exact ⟨part1, by simp [addEnvEntry, hs]⟩

theorem addEnvEntry_of_not_mem (env : List (String × String)) (entry : String)
    (h : '=' ∉ entry.data) :
    addEnvEntry env entry = Except.error "runtime error: index out of range" := by
  simp [addEnvEntry, Split_eq_of_not_mem entry h]

theorem addEnvEntries_error (entries : List String) (env : List (String × String))
    (h : ∃ entry ∈ entries, '=' ∉ entry.data) :
    addEnvEntries env entries = Except.error "runtime error: index out of range" := by
  induction entries generalizing env with
  | nil => simp at h
  | cons e rest ih =>
    by_cases he : '=' ∈ e.data
    · obtain ⟨v, hv⟩ := addEnvEntry_of_mem env e he
      have hrest : ∃ entry ∈ rest, '=' ∉ entry.data := by
        obtain ⟨x, hx, hx2⟩ := h
        rcases List.mem_cons.1 hx with h1 | h1
        · subst h1; exact absurd he hx2
        · exact ⟨x, h1, hx2⟩
      simp only [addEnvEntries, hv]
      exact ih _ hrest
    · simp only [addEnvEntries, addEnvEntry_of_not_mem env e he]

theorem addEnvEntries_ok (entries : List String) (env : List (String × String))
    (h : ∀ entry ∈ entries, '=' ∈ entry.data) :
    ∃ env1, addEnvEntries env entries = Except.ok env1 ∧
      ∀ k, k ∈ mapKeySet env1 ↔ k ∈ mapKeySet env ∨
        ∃ entry ∈ entries, k = String.mk (entry.data.takeWhile (fun c => c != '=')) := by
  induction entries generalizing env with
  | nil => exact ⟨env, rfl, by simp⟩
  | cons e rest ih =>
    obtain ⟨v, hv⟩ := addEnvEntry_of_mem env e (h e (List.mem_cons_self _ _))
    obtain ⟨env1, h1, h2⟩ := ih (mapSet env (String.mk (e.data.takeWhile (fun c => c != '='))) v)
      (fun x hx => h x (List.mem_cons_of_mem _ hx))
    refine ⟨env1, by simp only [addEnvEntries, hv]; exact h1, ?_⟩
    intro k
    rw [h2 k, mapKeySet_mapSet]
    split
    · next hin =>
      constructor
      · rintro (h3 | ⟨x, hx, hk⟩)
        · exact Or.inl h3
        · exact Or.inr ⟨x, List.mem_cons_of_mem _ hx, hk⟩
      · rintro (h3 | ⟨x, hx, hk⟩)
        · exact Or.inl h3
        · rcases List.mem_cons.1 hx with h4 | h4
          · subst h4; subst hk; exact Or.inl hin
          · exact Or.inr ⟨x, h4, hk⟩
    · constructor
      · rintro (h3 | ⟨x, hx, hk⟩)
        · rcases List.mem_append.1 h3 with h4 | h4
          · exact Or.inl h4
          · exact Or.inr ⟨e, List.mem_cons_self _ _, by simpa using h4⟩
        · exact Or.inr ⟨x, List.mem_cons_of_mem _ hx, hk⟩
      · rintro (h3 | ⟨x, hx, hk⟩)
        · exact Or.inl (List.mem_append_left _ h3)
        · rcases List.mem_cons.1 hx with h4 | h4
          · subst h4; subst hk; exact Or.inl (List.mem_append_right _ (by simp))
          · exact Or.inr ⟨x, h4, hk⟩

/-- C8: an environment entry with an equals sign is stored under the key that is
the text before its first equals sign; an entry without one ends the processing
with a runtime panic, no key being stored and the entry not being skipped: the
record of a container with such an entry is not built, and the record of a
container whose entries all have an equals sign has exactly those keys. -/
theorem addEnvEntry_key :
    (∀ (env : List (String × String)) (entry : String), '=' ∈ entry.data →
      ∃ value, addEnvEntry env entry = Except.ok
          (mapSet env (String.mk (entry.data.takeWhile (fun c => c != '='))) value) ∧
        mapGet (mapSet env (String.mk (entry.data.takeWhile (fun c => c != '='))) value)
          (String.mk (entry.data.takeWhile (fun c => c != '='))) = some value) ∧
    (∀ (env : List (String × String)) (entry : String), '=' ∉ entry.data →
      addEnvEntry env entry = Except.error "runtime error: index out of range") ∧
    (∀ (container : InspectedContainer), (∃ entry ∈ container.Env, '=' ∉ entry.data) →
      buildRuntimeContainer container = Except.error "runtime error: index out of range") ∧
    (∀ (container : InspectedContainer), (∀ entry ∈ container.Env, '=' ∈ entry.data) →
      ∃ record, buildRuntimeContainer container = Except.ok record ∧
        ∀ k, k ∈ mapKeySet record.Env ↔
          ∃ entry ∈ container.Env,
            k = String.mk (entry.data.takeWhile (fun c => c != '='))) := by
  refine ⟨fun env entry h => ?_, addEnvEntry_of_not_mem, fun container h => ?_,
    fun container h => ?_⟩
  · obtain ⟨value, hv⟩ := addEnvEntry_of_mem env entry h
    exact ⟨value, hv, by rw [mapGet_mapSet]; simp⟩
  · simp only [buildRuntimeContainer, addEnvEntries_error container.Env [] h]
  · obtain ⟨env1, h1, h2⟩ := addEnvEntries_ok container.Env [] h
    refine ⟨RuntimeContainer.mk container.ID
      (container.Ports.map (fun k => Address.mk container.IPAddress k)) container.Image env1,
      by simp only [buildRuntimeContainer, h1], ?_⟩
    intro k
    rw [h2 k]
    simp [mapKeySet]

/-- Witness of C8: the entry `PATH=/bin:/usr/bin` is stored under `PATH`, the entry
`A=b=c` under `A`, and the entry `BROKEN` stops the construction of the record. -/
theorem addEnvEntry_key_witness :
    (∃ value, addEnvEntry [] "A=b=c" = Except.ok (mapSet [] "A" value)) ∧
    addEnvEntry [("A", "b")] "BROKEN" = Except.error "runtime error: index out of range" ∧
    buildRuntimeContainer (InspectedContainer.mk "id" "img" "10.0.0.1" ["80"]
      ["PATH=/bin:/usr/bin", "BROKEN"]) = Except.error "runtime error: index out of range" := by
  refine ⟨?_, addEnvEntry_key.2.1 _ "BROKEN" (by decide),
    addEnvEntry_key.2.2.1 _ ⟨"BROKEN", by decide, by decide⟩⟩
  obtain ⟨value, hv, _⟩ := addEnvEntry_key.1 [] "A=b=c" (by decide)
  exact ⟨value, hv⟩

/-- C6: the collection `generateFile` binds to the template is the records with a
published address when `OnlyPublished` is set, whatever `OnlyExposed` is; otherwise
the records with an address when `OnlyExposed` is set; otherwise the whole
snapshot; always in the order of the snapshot; `generateFile` acts as it would
without the two switches on that collection; and with `OnlyExposed` alone and the
containers web (no address) and api (port 8080) the template sees only api. -/
theorem filteredContainers_bound :
    (∀ (published : RuntimeContainer → List Address) (config : Config) (containers : Context),
      (config.OnlyPublished = true → filteredContainers published config containers =
        containers.filter (fun c => !(published c).isEmpty)) ∧
      (config.OnlyPublished = false → config.OnlyExposed = true →
        filteredContainers published config containers =
          containers.filter (fun c => !c.Addresses.isEmpty)) ∧
      (config.OnlyPublished = false → config.OnlyExposed = false →
        filteredContainers published config containers = containers) ∧
      (filteredContainers published config containers).Sublist containers ∧
      (∀ (engine : Engine) (sys : Sys) (w : World),
        generateFile engine published sys config containers w =
          generateFile engine published sys
            (Config.mk config.Template config.Dest config.Watch config.NotifyCmd false false)
            (filteredContainers published config containers) w)) ∧
    (∀ (published : RuntimeContainer → List Address),
      filteredContainers published (Config.mk "t.tmpl" "out" false "" true false)
        [RuntimeContainer.mk "web" [] "nginx" [],
          RuntimeContainer.mk "api" [Address.mk "10.0.0.2" "8080"] "app" []] =
        [RuntimeContainer.mk "api" [Address.mk "10.0.0.2" "8080"] "app" []]) := by
  refine ⟨fun published config containers => ⟨?_, ?_, ?_, ?_, ?_⟩, fun published => rfl⟩
  · intro h
    simp only [filteredContainers, h, if_true]
    congr 1
    funext c
    cases published c <;> simp
  · intro h1 h2
    simp only [filteredContainers, h1, h2, if_true, Bool.false_eq_true, if_false]
    congr 1
    funext c
    cases c.Addresses <;> simp
  · intro h1 h2
    simp [filteredContainers, h1, h2]
  · unfold filteredContainers
    split
    · exact List.filter_sublist _
    · split
      · exact List.filter_sublist _
      · exact List.Sublist.refl _
  · intro engine sys w
    rfl

/-- Witness of C6: with `OnlyPublished` set and no published address anywhere the
template sees no container, also when `OnlyExposed` is not set. -/
theorem filteredContainers_bound_witness :
    filteredContainers (fun _ => []) (Config.mk "t.tmpl" "out" false "" false true)
      [RuntimeContainer.mk "api" [Address.mk "10.0.0.2" "8080"] "app" []] =
      [RuntimeContainer.mk "api" [Address.mk "10.0.0.2" "8080"] "app" []].filter
        (fun c => !((fun _ => ([] : List Address)) c).isEmpty) :=
  (filteredContainers_bound.1 (fun _ => []) _ _).1 rfl

/-- When the bytes at the destination (none when there is no file) are the rendered
text, `generateFile` reports no change and leaves the destination as it is. -/
theorem generateFile_same (engine : Engine) (published : RuntimeContainer → List Address)
    (sys : Sys) (config : Config) (containers : Context) (w : World)
    (tmpl : Context → Except String String) (out tmp : String)
    (hdest : config.Dest ≠ "") (hparse : engine.FromFile config.Template = Except.ok tmpl)
    (hexec : tmpl (filteredContainers published config containers) = Except.ok out)
    (htmp : sys.tempFile = some tmp) (hne : tmp ≠ config.Dest)
    (hchmod : sys.chmodFails = false) (hchown : sys.chownFails = false)
    (hread : sys.readFails = false)
    (hsame : currentBytes w.fs config.Dest = out) :
    ∃ w1, generateFile engine published sys config containers w = Except.ok (false, w1) ∧
      w1.fs config.Dest = w.fs config.Dest := by
  have hne2 : ¬ config.Dest = tmp := fun e => hne e.symm
  cases hfs : w.fs config.Dest with
  | none =>
    have hout : out = "" := by simpa [currentBytes, hfs] using hsame.symm
    subst hout
    refine ⟨World.mk ((w.fs.put tmp (File.mk "" 384 sys.uid sys.gid)).remove tmp) w.stdout,
      ?_, ?_⟩
    · simp only [generateFile, hparse, hdest, hexec, htmp, compareAndRename, FS.put, hne2,
        if_false, hfs, ne_eq, not_true_eq_false, not_false_eq_true, if_true]
    · simp [FS.remove, FS.put, hne2, hfs]
  | some fi =>
    have hout : fi.content = out := by simpa [currentBytes, hfs] using hsame
    refine ⟨World.mk (((w.fs.put tmp (File.mk out 384 sys.uid sys.gid)).put tmp
      (File.mk out fi.mode fi.uid fi.gid)).remove tmp) w.stdout, ?_, ?_⟩
    · simp only [generateFile, hparse, hdest, hexec, htmp, compareAndRename, FS.put, hne2,
        if_false, hfs, ne_eq, not_true_eq_false, not_false_eq_true, if_true, hchmod, hchown,
        hread, Bool.false_eq_true, hout]
    · simp [FS.remove, FS.put, hne2, hfs]

/-- When the bytes at the destination differ from the rendered text, `generateFile`
renames the temporary file over the destination and reports a change. -/
theorem generateFile_differs (engine : Engine) (published : RuntimeContainer → List Address)
    (sys : Sys) (config : Config) (containers : Context) (w : World)
    (tmpl : Context → Except String String) (out tmp : String)
    (hdest : config.Dest ≠ "") (hparse : engine.FromFile config.Template = Except.ok tmpl)
    (hexec : tmpl (filteredContainers published config containers) = Except.ok out)
    (htmp : sys.tempFile = some tmp) (hne : tmp ≠ config.Dest)
    (hchmod : sys.chmodFails = false) (hchown : sys.chownFails = false)
    (hread : sys.readFails = false) (hrename : sys.renameFails = false)
    (hdiff : currentBytes w.fs config.Dest ≠ out) :
    ∃ w1, generateFile engine published sys config containers w = Except.ok (true, w1) ∧
      currentBytes w1.fs config.Dest = out ∧ (w1.fs config.Dest).isSome = true := by
  have hne2 : ¬ config.Dest = tmp := fun e => hne e.symm
  cases hfs : w.fs config.Dest with
  | none =>
    have hout : ¬ "" = out := by simpa [currentBytes, hfs] using hdiff
    refine ⟨World.mk (((w.fs.put tmp (File.mk out 384 sys.uid sys.gid)).rename tmp
      config.Dest).remove tmp) w.stdout, ?_, ?_⟩
    · simp only [generateFile, hparse, hdest, hexec, htmp, compareAndRename, FS.put, hne2,
        if_false, hfs, ne_eq, not_true_eq_false, not_false_eq_true, if_true, hout, hrename,
        Bool.false_eq_true]
    · simp [currentBytes, FS.remove, FS.rename, FS.put, hne2]
  | some fi =>
    have hout : ¬ fi.content = out := by simpa [currentBytes, hfs] using hdiff
    refine ⟨World.mk ((((w.fs.put tmp (File.mk out 384 sys.uid sys.gid)).put tmp
      (File.mk out fi.mode fi.uid fi.gid)).rename tmp config.Dest).remove tmp) w.stdout,
      ?_, ?_⟩
    · simp only [generateFile, hparse, hdest, hexec, htmp, compareAndRename, FS.put, hne2,
        if_false, hfs, ne_eq, not_true_eq_false, not_false_eq_true, if_true, hchmod, hchown,
        hread, Bool.false_eq_true, hout, hrename]
    · simp [currentBytes, FS.remove, FS.rename, FS.put, hne2]

/-- C2: with a non-empty destination, a deterministic engine and no failing system
call, two calls of `generateFile` in a row with the same config and snapshot both
return, the second reports that nothing changed, and it leaves at the destination
the very file the first call left there. -/
theorem generateFile_twice (engine : Engine) (published : RuntimeContainer → List Address)
    (sys1 sys2 : Sys) (config : Config) (containers : Context) (w : World)
    (tmpl : Context → Except String String) (out tmp1 tmp2 : String)
    (hdest : config.Dest ≠ "") (hparse : engine.FromFile config.Template = Except.ok tmpl)
    (hexec : tmpl (filteredContainers published config containers) = Except.ok out)
    (htmp1 : sys1.tempFile = some tmp1) (hne1 : tmp1 ≠ config.Dest)
    (htmp2 : sys2.tempFile = some tmp2) (hne2 : tmp2 ≠ config.Dest)
    (hsys1 : sys1.chmodFails = false ∧ sys1.chownFails = false ∧ sys1.readFails = false ∧
      sys1.renameFails = false)
    (hsys2 : sys2.chmodFails = false ∧ sys2.chownFails = false ∧ sys2.readFails = false ∧
      sys2.renameFails = false) :
    ∃ changed w1 w2,
      generateFile engine published sys1 config containers w = Except.ok (changed, w1) ∧
      generateFile engine published sys2 config containers w1 = Except.ok (false, w2) ∧
      w2.fs config.Dest = w1.fs config.Dest := by
  obtain ⟨a1, b1, c1, d1⟩ := hsys1
  obtain ⟨a2, b2, c2, _⟩ := hsys2
  by_cases hcur : currentBytes w.fs config.Dest = out
  · obtain ⟨w1, hw1, hfs1⟩ := generateFile_same engine published sys1 config containers w tmpl
      out tmp1 hdest hparse hexec htmp1 hne1 a1 b1 c1 hcur
    have hcur1 : currentBytes w1.fs config.Dest = out := by
      simpa [currentBytes, hfs1] using hcur
    obtain ⟨w2, hw2, hfs2⟩ := generateFile_same engine published sys2 config containers w1 tmpl
      out tmp2 hdest hparse hexec htmp2 hne2 a2 b2 c2 hcur1
    exact ⟨false, w1, w2, hw1, hw2, hfs2⟩
  · obtain ⟨w1, hw1, hcur1, _⟩ := generateFile_differs engine published sys1 config containers w
      tmpl out tmp1 hdest hparse hexec htmp1 hne1 a1 b1 c1 d1 hcur
    obtain ⟨w2, hw2, hfs2⟩ := generateFile_same engine published sys2 config containers w1 tmpl
      out tmp2 hdest hparse hexec htmp2 hne2 a2 b2 c2 hcur1
    exact ⟨true, w1, w2, hw1, hw2, hfs2⟩

/-- Witness of C2: a template rendering one line, written twice to a destination
that did not exist. -/
theorem generateFile_twice_witness :
    ∃ changed w1 w2,
      generateFile (Engine.mk (fun _ => Except.ok (fun _ => Except.ok "server web;\n")))
        (fun _ => []) (Sys.mk (some "/etc/nginx/docker-gen1") 0 0 false false false false)
        (Config.mk "nginx.tmpl" "/etc/nginx/default.conf" true "" false false) []
        (World.mk (fun _ => none) "") = Except.ok (changed, w1) ∧
      generateFile (Engine.mk (fun _ => Except.ok (fun _ => Except.ok "server web;\n")))
        (fun _ => []) (Sys.mk (some "/etc/nginx/docker-gen2") 0 0 false false false false)
        (Config.mk "nginx.tmpl" "/etc/nginx/default.conf" true "" false false) []
        w1 = Except.ok (false, w2) ∧
      w2.fs "/etc/nginx/default.conf" = w1.fs "/etc/nginx/default.conf" :=
  generateFile_twice (Engine.mk (fun _ => Except.ok (fun _ => Except.ok "server web;\n")))
    (fun _ => []) (Sys.mk (some "/etc/nginx/docker-gen1") 0 0 false false false false)
    (Sys.mk (some "/etc/nginx/docker-gen2") 0 0 false false false false)
    (Config.mk "nginx.tmpl" "/etc/nginx/default.conf" true "" false false) []
    (World.mk (fun _ => none) "") (fun _ => Except.ok "server web;\n") "server web;\n"
    "/etc/nginx/docker-gen1" "/etc/nginx/docker-gen2" (by decide) rfl rfl rfl (by decide) rfl
    (by decide) ⟨rfl, rfl, rfl, rfl⟩ ⟨rfl, rfl, rfl, rfl⟩

/-- C1, on the code: when no file exists at the destination and the rendered text is
empty, `generateFile` reports that nothing changed and creates no file at the
destination. -/
theorem generateFile_no_destination_empty_output :
    (generateFile (Engine.mk (fun _ => Except.ok (fun _ => Except.ok "")))
      (fun _ => []) (Sys.mk (some "/etc/nginx/docker-gen1") 0 0 false false false false)
      (Config.mk "nginx.tmpl" "/etc/nginx/default.conf" true "" false false) []
      (World.mk (fun _ => none) "")).map
        (fun r => (r.1, (r.2.fs "/etc/nginx/default.conf").isSome)) =
      Except.ok (false, false) := by
  rfl

theorem ReplaceAllString_emptylines (rendered : String) :
    ReplaceAllString re_emptylines rendered "\n\n" = collapseBlankLines rendered := by
  unfold ReplaceAllString collapseBlankLines
  have := replace_emptylines_eq_collapseFrom rendered.data [] (by simp)
  simp only [List.nil_append] at this
  rw [← this]

/-- C9: for every rendered text of a mute block, what `Execute` writes is the text
in which every maximal stretch of white space that holds two line breaks or more
is replaced, up to its last line break, by exactly two line breaks, all other text
being unchanged; what it writes never holds three line breaks in a row; and three
lines that hold only a line break are written as one blank line. -/
theorem tagMuteNode_Execute_collapses :
    (∀ (rendered : String) (err : Option String) (buf : String),
      tagMuteNode.Execute rendered err buf = (buf ++ collapseBlankLines rendered, err)) ∧
    (∀ (rendered : String) (err : Option String),
      ¬ ['\n', '\n', '\n'] <:+: (tagMuteNode.Execute rendered err "").1.data) ∧
    (∀ (run : List Char), 2 ≤ run.count '\n' →
      collapseRun run = '\n' :: '\n' :: trailingSpace run ∧ '\n' ∉ trailingSpace run) ∧
    (∀ (run : List Char), run.count '\n' < 2 → collapseRun run = run) ∧
    (tagMuteNode.Execute "\n\n\n" none "").1 = "\n\n" ∧
    (tagMuteNode.Execute "a\n\n\nb" none "").1 = "a\n\nb" ∧
    (tagMuteNode.Execute "a \r\n\t\n\n  b\nc" none "").1 = "a\n\n  b\nc" := by
  refine ⟨fun rendered err buf => ?_, fun rendered err => ?_, fun run h => ?_, fun run h => ?_,
    rfl, rfl, rfl⟩
  · simp only [tagMuteNode.Execute, ReplaceAllString_emptylines]
  · have h := replace_emptylines_no_three rendered.data.length rendered.data (Nat.le_refl _)
    simpa [tagMuteNode.Execute, ReplaceAllString, String.data_append] using h
  · exact ⟨by simp [collapseRun, h], trailingSpace_no_break run⟩
  · have : ¬ 2 ≤ run.count '\n' := by omega
    simp [collapseRun, this]

/-- Witness of C9: a stretch of white space with two line breaks. -/
theorem tagMuteNode_Execute_collapses_witness :
    collapseRun [' ', '\n', ' ', '\n', '\t'] =
        '\n' :: '\n' :: trailingSpace [' ', '\n', ' ', '\n', '\t'] ∧
      '\n' ∉ trailingSpace [' ', '\n', ' ', '\n', '\t'] :=
  tagMuteNode_Execute_collapses.2.2.1 _ (by decide)

end DockerGen
